import Mathlib

/-!
Verification of a byte trie with edge compression (trie.go).

The Go type `Trie` holds a suffix (byte string), an optional value
(`interface{}`, nil meaning absent), a dense child array indexed by
`byte - base`, and the base byte.  Keys and suffixes are modelled as
`List Nat` with every byte below 256; values are `Option α`.

Children are a mutually inductive list (`TrieL`) so that all operations
are structurally recursive and kernel-computable.  Byte arithmetic is
`Nat` with explicit `% 256` where the Go `byte` type wraps.  Operations
that index into arrays are modelled as `Option`-returning functions
(`none` models a Go panic); total wrappers take the default.
-/

mutual

inductive Trie (α : Type) where
  | mk (suffix : List Nat) (value : Option α) (children : TrieL α) (base : Nat)
deriving DecidableEq

inductive TrieL (α : Type) where
  | nil
  | cons (hd : Trie α) (tl : TrieL α)
deriving DecidableEq

end

namespace TrieL

def length {α : Type} : TrieL α → Nat
  | .nil => 0
  | .cons _ ts => ts.length + 1

def get? {α : Type} : TrieL α → Nat → Option (Trie α)
  | .nil, _ => none
  | .cons t _, 0 => some t
  | .cons _ ts, n + 1 => ts.get? n

def set {α : Type} : TrieL α → Nat → Trie α → TrieL α
  | .nil, _, _ => .nil
  | .cons _ ts, 0, u => .cons u ts
  | .cons t ts, n + 1, u => .cons t (ts.set n u)

def append {α : Type} : TrieL α → TrieL α → TrieL α
  | .nil, us => us
  | .cons t ts, us => .cons t (ts.append us)

def take {α : Type} : TrieL α → Nat → TrieL α
  | .nil, _ => .nil
  | .cons _ _, 0 => .nil
  | .cons t ts, n + 1 => .cons t (ts.take n)

def drop {α : Type} : TrieL α → Nat → TrieL α
  | .nil, _ => .nil
  | ts, 0 => ts
  | .cons _ ts, n + 1 => ts.drop n

def replicate {α : Type} (t : Trie α) : Nat → TrieL α
  | 0 => .nil
  | n + 1 => .cons t (replicate t n)

def toList {α : Type} : TrieL α → List (Trie α)
  | .nil => []
  | .cons t ts => t :: ts.toList

end TrieL

namespace Trie

def suffix {α : Type} : Trie α → List Nat
  | .mk s _ _ _ => s

def value {α : Type} : Trie α → Option α
  | .mk _ v _ _ => v

def children {α : Type} : Trie α → TrieL α
  | .mk _ _ cs _ => cs

def base {α : Type} : Trie α → Nat
  | .mk _ _ _ b => b

/-- The zero value of the Go `Trie` struct: the empty trie, ready to use. -/
def empty {α : Type} : Trie α := .mk [] none .nil 0

end Trie

/-- `commonPrefix a b` (trie.go line 35): the largest `i` with `a[:i] == b[:i]`. -/
def commonPrefix : List Nat → List Nat → Nat
  | a :: as, b :: bs => if a = b then commonPrefix as bs + 1 else 0
  | _, _ => 0

/-- Go `byte` subtraction `a - b` (wraps modulo 256) for `a b < 256`. -/
def bsub (a b : Nat) : Nat := (a + 256 - b) % 256

/-- Go byte complement `^x`. -/
def bcompl (x : Nat) : Nat := 255 ^^^ (x % 256)

/-- One iteration body of the growth loop in `Put` (trie.go lines 67-70 and
97-100): `newlen *= 2; newbase &= ^byte(newlen - 1)`. -/
def growStep (b l : Nat) : Nat × Nat := (Nat.land b (bcompl (2 * l - 1)), 2 * l)

/-- The growth loop of `Put`:
`for key[s] < newbase || int(key[s]) >= int(newbase)+newlen { ... }`.
Structural fuel; 9 iterations always suffice for byte inputs
(lemma `growLoop_spec`), because once the length reaches 256 the base is
masked to 0 and every byte is in range. -/
def growLoop (c : Nat) : Nat → Nat → Nat → Nat × Nat
  | b, l, 0 => (b, l)
  | b, l, fuel + 1 =>
    if c < b ∨ b + l ≤ c then growLoop c (growStep b l).1 (growStep b l).2 fuel
    else (b, l)

def grow (c b l : Nat) : Nat × Nat := growLoop c b l 9

/-- `copy(dst[off:], src)` on a destination of fixed length: overwrites
`min (src.length) (dst.length - off)` entries of `dst` starting at `off`. -/
def copyInto {α : Type} (dst : TrieL α) (off : Nat) (src : TrieL α) : TrieL α :=
  (dst.take off).append ((src.take (dst.length - off)).append
    (dst.drop (off + min src.length (dst.length - off))))

/-- The Go test `t.children == nil && t.value == nil` (trie.go line 51). -/
def isEmptyNode {α : Type} : Option α → TrieL α → Bool
  | none, .nil => true
  | _, _ => false

/-- The split step of `Put` (trie.go lines 59-84): if the key diverges inside
the suffix (`s < len(suffix)`), push the node contents one level down,
sized so that the key byte `key[s]` (when present) is also in range.
`none` models an out-of-bounds index (a Go panic). -/
def putSplit {α : Type} (sfx : List Nat) (v : Option α) (cs : TrieL α) (b : Nat)
    (key : List Nat) (s : Nat) : Option (Trie α) :=
  if s < sfx.length then
    match sfx.get? s with
    | none => none
    | some sb =>
      let p :=
        if s < key.length then
          match key.get? s with
          | none => (sb, 1)
          | some kb => grow kb sb 1
        else (sb, 1)
      if bsub sb p.1 < p.2 then
        some (.mk (sfx.take s) none
          ((TrieL.replicate Trie.empty p.2).set (bsub sb p.1)
            (.mk (sfx.drop (s + 1)) v cs b)) p.1)
      else none
  else some (.mk sfx v cs b)

/-- The child-array preparation step of `Put` (trie.go lines 91-107):
allocate a 1-slot array if there is none, or grow (double and re-align,
copying old entries) until the byte `kb` is in range. -/
def putPrep {α : Type} (cs1 : TrieL α) (b1 kb : Nat) : Option (TrieL α × Nat) :=
  if cs1.length = 0 then some (.cons Trie.empty .nil, kb)
  else
    let p := grow kb b1 cs1.length
    if p.2 ≠ cs1.length then
      if bsub b1 p.1 ≤ p.2 then
        some (copyInto (TrieL.replicate Trie.empty p.2) (bsub b1 p.1) cs1, p.1)
      else none
    else some (cs1, b1)

/-- `Put` (trie.go lines 50-112), checked: `none` models an out-of-bounds
index (a Go panic).  Structural fuel on the key length: each recursive call
drops at least one byte of the key. -/
def putF {α : Type} : Nat → Trie α → List Nat → Option α → Option (Trie α)
  | 0, _, _, _ => none
  | fuel + 1, .mk sfx v cs b, key, value =>
    if isEmptyNode v cs then some (.mk key value .nil b)   -- empty node fast path
    else
      let s := commonPrefix sfx key
      (putSplit sfx v cs b key s).bind (fun t1 =>
        if s = key.length then some (.mk t1.suffix value t1.children t1.base)
        else
          (key.get? s).bind (fun kb =>
            (putPrep t1.children t1.base kb).bind (fun p =>
              (p.1.get? (bsub kb p.2)).bind (fun child =>
                (putF fuel child (key.drop (s + 1)) value).map
                  (fun child' => .mk t1.suffix t1.value (p.1.set (bsub kb p.2) child') p.2)))))

def putC {α : Type} (t : Trie α) (key : List Nat) (v : Option α) : Option (Trie α) :=
  putF (key.length + 1) t key v

def put {α : Type} (t : Trie α) (key : List Nat) (v : Option α) : Trie α :=
  (putC t key v).getD t

/-- `Get` (trie.go lines 115-131), checked. -/
def getF {α : Type} : Nat → Trie α → List Nat → Option (Option α)
  | 0, _, _ => none
  | fuel + 1, t, key =>
    let s := commonPrefix t.suffix key
    if s < t.suffix.length then some none
    else if s = key.length then some t.value
    else
      match key.get? s with
      | none => none
      | some kb =>
        if kb < t.base ∨ t.base + t.children.length ≤ kb then some none
        else
          match t.children.get? (bsub kb t.base) with
          | none => none
          | some c => getF fuel c (key.drop (s + 1))

def getC {α : Type} (t : Trie α) (key : List Nat) : Option (Option α) :=
  getF (key.length + 1) t key

def get {α : Type} (t : Trie α) (key : List Nat) : Option α :=
  (getC t key).getD none

-- sanity checks (concrete evaluation)
example : get (put (Trie.empty (α := Nat)) [97, 98] (some 5)) [97, 98] = some 5 := by decide
example : get (put (Trie.empty (α := Nat)) [97, 98] (some 5)) [97] = none := by decide
example :
    get (put (put (Trie.empty (α := Nat)) [97, 97] (some 1)) [97, 99] (some 2)) [97, 99]
      = some 2 := by decide

/-- `FindPfx` (trie.go lines 134-165), checked: the longest prefix of `key`
in the trie that has a non-nil value, with `([], none)` for "not found". -/
def findPfxF {α : Type} : Nat → Trie α → List Nat → Option (List Nat × Option α)
  | 0, _, _ => none
  | fuel + 1, t, key =>
    let s := commonPrefix t.suffix key
    if s < t.suffix.length then some ([], none)
    else if s = key.length then
      some (if t.value.isSome then (t.suffix, t.value) else ([], none))
    else
      (key.get? s).bind (fun kb =>
        if kb < t.base ∨ t.base + t.children.length ≤ kb then
          some (if t.value.isSome then (t.suffix, t.value) else ([], none))
        else
          (t.children.get? (bsub kb t.base)).bind (fun c =>
            (findPfxF fuel c (key.drop (s + 1))).map (fun pv =>
              if pv.2.isSome then (key.take (s + 1) ++ pv.1, pv.2)
              else if t.value.isSome then (t.suffix, t.value) else ([], none))))

def findPfxC {α : Type} (t : Trie α) (key : List Nat) : Option (List Nat × Option α) :=
  findPfxF (key.length + 1) t key

def findPfx {α : Type} (t : Trie α) (key : List Nat) : List Nat × Option α :=
  (findPfxC t key).getD ([], none)

/-- `findAllPfx` (trie.go lines 177-204), checked.  Note: the source indexes
`key[s]` (not `key[ofs+s]`) in the range test and the child selection; the
model reproduces that faithfully. -/
def findAllPfxF {α : Type} : Nat → Trie α → List Nat → Nat → Option (List (List Nat × α))
  | 0, _, _, _ => none
  | fuel + 1, t, key, ofs =>
    let s := commonPrefix t.suffix (key.drop ofs)
    if s < t.suffix.length then some []
    else if ofs + s = key.length then
      some (match t.value with | some x => [(key.take (ofs + s), x)] | none => [])
    else
      (key.get? s).bind (fun kb =>    -- source: key[s], not key[ofs+s]
        if kb < t.base ∨ t.base + t.children.length ≤ kb then
          some (match t.value with | some x => [(key.take (ofs + s), x)] | none => [])
        else
          (t.children.get? (bsub kb t.base)).bind (fun c =>
            (findAllPfxF fuel c key (ofs + s + 1)).map (fun kv =>
              match t.value with | some x => kv ++ [(key.take (ofs + s), x)] | none => kv)))

def findAllPfxC {α : Type} (t : Trie α) (key : List Nat) : Option (List (List Nat × α)) :=
  findAllPfxF (key.length + 1) t key 0

/-- `FindAllPfx` (trie.go line 175). -/
def findAllPfx {α : Type} (t : Trie α) (key : List Nat) : List (List Nat × α) :=
  (findAllPfxC t key).getD []

/-- `subtrie` (trie.go lines 208-226), checked: the part of `t` that has
`key` as a prefix, and the number of trailing bytes of `key` that lie inside
that node's suffix.  Inner `none` is Go's `(nil, 0)` result. -/
def subtrieF {α : Type} : Nat → Trie α → List Nat → Option (Option (Trie α × Nat))
  | 0, _, _ => none
  | fuel + 1, t, key =>
    let s := commonPrefix t.suffix key
    if s = key.length then some (some (t, s))
    else if s < t.suffix.length then some none
    else
      (key.get? s).bind (fun kb =>
        if kb < t.base ∨ t.base + t.children.length ≤ kb then some none
        else
          (t.children.get? (bsub kb t.base)).bind (fun c =>
            subtrieF fuel c (key.drop (s + 1))))

def subtrieC {α : Type} (t : Trie α) (key : List Nat) : Option (Option (Trie α × Nat)) :=
  subtrieF (key.length + 1) t key

def subtrie {α : Type} (t : Trie α) (key : List Nat) : Option (Trie α × Nat) :=
  (subtrieC t key).getD none

mutual

/-- `forEach` (trie.go lines 228-254), checked.  The traversal buffer is
threaded explicitly; the result is the final buffer, the continue flag, and
the list of key/value pairs passed to the callback, in call order.
`buf.Bytes()[l]++` is a byte increment, modelled `% 256`; indexing the
buffer out of range would be `none`. -/
def forEachF {α : Type} : Trie α → (List Nat → α → Bool) → List Nat →
    Option (List Nat × Bool × List (List Nat × α))
  | .mk sfx v cs b, f, buf =>
    match v, cs with
    | none, .nil => some (buf, true, [])
    | _, _ =>
      let pfx := buf.length
      let buf1 := buf ++ sfx
      let emitted : List (List Nat × α) := match v with | some x => [(buf1, x)] | none => []
      let cont : Bool := match v with | some x => f buf1 x | none => true
      if cont then
        match cs with
        | .nil => some (buf1.take pfx, true, emitted)
        | .cons _ _ =>
          let l := buf1.length
          match forEachL cs f (buf1 ++ [b % 256]) l with
          | none => none
          | some (buf3, c2, out2) =>
            if c2 then some (buf3.take pfx, true, emitted ++ out2)
            else some (buf3, false, emitted ++ out2)
      else some (buf1, false, emitted)

/-- The `for _, v := range t.children` loop of `forEach`: after each child
returns true, the byte at buffer position `l` is incremented. -/
def forEachL {α : Type} : TrieL α → (List Nat → α → Bool) → List Nat → Nat →
    Option (List Nat × Bool × List (List Nat × α))
  | .nil, _, buf, _ => some (buf, true, [])
  | .cons t ts, f, buf, l =>
    match forEachF t f buf with
    | none => none
    | some (buf1, c1, out1) =>
      if c1 then
        match buf1.get? l with
        | none => none
        | some x =>
          match forEachL ts f (buf1.set l ((x + 1) % 256)) l with
          | none => none
          | some (buf2, c2, out2) => some (buf2, c2, out1 ++ out2)
      else some (buf1, false, out1)

end

/-- `ForEach` (trie.go line 259): the pairs passed to `f`, starting from an
empty buffer. -/
def forEachPairs {α : Type} (t : Trie α) (f : List Nat → α → Bool) : List (List Nat × α) :=
  match forEachF t f [] with
  | some r => r.2.2
  | none => []

/-- `ForEachPfx` (trie.go lines 273-282), checked. -/
def forEachPfxC {α : Type} (t : Trie α) (pfx : List Nat) (f : List Nat → α → Bool) :
    Option (List Nat × Bool × List (List Nat × α)) :=
  match subtrieC t pfx with
  | none => none
  | some none => some ([], true, [])
  | some (some (t', sfx)) => forEachF t' f (pfx.take (pfx.length - sfx))

/-- The pairs passed to `f` by `ForEachPfx`. -/
def forEachPfxPairs {α : Type} (t : Trie α) (pfx : List Nat) (f : List Nat → α → Bool) :
    List (List Nat × α) :=
  match forEachPfxC t pfx f with
  | some r => r.2.2
  | none => []

-- sanity checks against the test vectors of trie_test.go
-- "fooaaaa"->1, "foocdef"->2
def fooTrie : Trie Nat :=
  put (put Trie.empty [102, 111, 111, 97, 97, 97, 97] (some 1))
    [102, 111, 111, 99, 100, 101, 102] (some 2)

example : findPfx fooTrie [102, 111, 111, 97, 97, 97, 97, 98, 99, 100]
    = ([102, 111, 111, 97, 97, 97, 97], some 1) := by decide
example : findPfx fooTrie [102, 111, 111, 99, 100] = ([], none) := by decide
example : findPfx fooTrie [103] = ([], none) := by decide
example : findPfx fooTrie [102, 111, 111, 99, 100, 101, 102, 103, 104]
    = ([102, 111, 111, 99, 100, 101, 102], some 2) := by decide

-- "aaaa"->1, "aabb"->2, "aa"->3
def aaTrie : Trie Nat :=
  put (put (put Trie.empty [97, 97, 97, 97] (some 1)) [97, 97, 98, 98] (some 2))
    [97, 97] (some 3)

example : findAllPfx aaTrie [97, 97] = [([97, 97], 3)] := by decide
example : findAllPfx aaTrie [97, 97, 98, 98]
    = [([97, 97, 98, 98], 2), ([97, 97], 3)] := by decide
example : findAllPfx aaTrie [97, 97, 98, 98, 99, 99]
    = [([97, 97, 98, 98], 2), ([97, 97], 3)] := by decide

example : forEachPairs aaTrie (fun _ _ => true)
    = [([97, 97], 3), ([97, 97, 97, 97], 1), ([97, 97, 98, 98], 2)] := by decide

/-! ### Induction principles (the mutual recursor has two motives, which the
`induction` tactic does not accept directly) -/

theorem TrieL.listInduction {α : Type} {Q : TrieL α → Prop} (hnil : Q .nil)
    (hcons : ∀ t ts, Q ts → Q (.cons t ts)) : ∀ ts, Q ts :=
  fun ts =>
    @TrieL.rec α (fun _ => True) Q
      (fun _ _ _ _ _ => trivial) hnil (fun t ts _ ih => hcons t ts ih) ts

theorem Trie.nodeInduction {α : Type} {P : Trie α → Prop}
    (h : ∀ sfx v cs b, (∀ t, t ∈ cs.toList → P t) → P (.mk sfx v cs b)) : ∀ t, P t :=
  fun t =>
    @Trie.rec α P (fun cs => ∀ u, u ∈ cs.toList → P u)
      (fun sfx v cs b ih => h sfx v cs b ih)
      (fun u hu => by simp [TrieL.toList] at hu)
      (fun hd tl ihhd ihtl => by
        intro u hu
        simp [TrieL.toList] at hu
        rcases hu with h1 | h2
        · exact h1 ▸ ihhd
        · exact ihtl u h2)
      t

/-! ### Basic lemmas: TrieL, commonPrefix, byte arithmetic -/

namespace TrieL

theorem length_replicate {α : Type} (t : Trie α) (n : Nat) :
    (replicate t n).length = n := by
  induction n with
  | zero => rfl
  | succ n ih => simp [replicate, length, ih]

theorem get?_replicate {α : Type} (t : Trie α) (n i : Nat) :
    (replicate t n).get? i = if i < n then some t else none := by
  induction n generalizing i with
  | zero => simp [replicate, get?]
  | succ n ih =>
    cases i with
    | zero => simp [replicate, get?]
    | succ i => simp [replicate, get?, ih, Nat.succ_lt_succ_iff]

theorem length_append {α : Type} (ts us : TrieL α) :
    (ts.append us).length = ts.length + us.length := by
  induction ts using TrieL.listInduction with
  | hnil => simp [append, length]
  | hcons t ts ih => simp [append, length, ih]; omega

theorem get?_append {α : Type} (ts us : TrieL α) (i : Nat) :
    (ts.append us).get? i = if i < ts.length then ts.get? i else us.get? (i - ts.length) := by
  induction ts using TrieL.listInduction generalizing i with
  | hnil => simp [append, length, get?]
  | hcons t ts ih =>
    cases i with
    | zero => simp [append, get?, length]
    | succ i => simp [append, get?, length, ih, Nat.succ_lt_succ_iff]

theorem length_set {α : Type} (ts : TrieL α) (i : Nat) (u : Trie α) :
    (ts.set i u).length = ts.length := by
  induction ts using TrieL.listInduction generalizing i with
  | hnil => rfl
  | hcons t ts ih =>
    cases i with
    | zero => simp [set, length]
    | succ i => simp [set, length, ih]

theorem get?_set {α : Type} (ts : TrieL α) (i : Nat) (u : Trie α) (j : Nat) :
    (ts.set i u).get? j =
      if i = j ∧ i < ts.length then some u else ts.get? j := by
  induction ts using TrieL.listInduction generalizing i j with
  | hnil => simp [set, get?, length]
  | hcons t ts ih =>
    cases i with
    | zero =>
      cases j with
      | zero => simp [set, get?, length]
      | succ j => simp [set, get?]
    | succ i =>
      cases j with
      | zero => simp [set, get?]
      | succ j =>
        rw [set, get?, get?, ih]
        by_cases h : i = j <;> simp [h, length, Nat.succ_lt_succ_iff]

theorem get?_isSome_iff {α : Type} (ts : TrieL α) (i : Nat) :
    (ts.get? i).isSome ↔ i < ts.length := by
  induction ts using TrieL.listInduction generalizing i with
  | hnil => simp [get?, length]
  | hcons t ts ih =>
    cases i with
    | zero => simp [get?, length]
    | succ i =>
      rw [get?, ih]
      simp [length, Nat.succ_lt_succ_iff]

theorem get?_eq_none_iff {α : Type} (ts : TrieL α) (i : Nat) :
    ts.get? i = none ↔ ts.length ≤ i := by
  rw [← Option.not_isSome_iff_eq_none, get?_isSome_iff]; omega

theorem take_replicate {α : Type} (t : Trie α) (n k : Nat) :
    (replicate t n).take k = replicate t (min k n) := by
  induction n generalizing k with
  | zero => cases k <;> simp [replicate, take]
  | succ n ih =>
    cases k with
    | zero => simp [replicate, take]
    | succ k => simp [replicate, take, ih, Nat.succ_min_succ]

theorem drop_replicate {α : Type} (t : Trie α) (n k : Nat) :
    (replicate t n).drop k = replicate t (n - k) := by
  induction n generalizing k with
  | zero => cases k <;> simp [replicate, drop]
  | succ n ih =>
    cases k with
    | zero => simp [replicate, drop]
    | succ k => simp [replicate, drop, ih, Nat.succ_sub_succ]

theorem take_of_length_le {α : Type} (ts : TrieL α) (n : Nat) (h : ts.length ≤ n) :
    ts.take n = ts := by
  induction ts using TrieL.listInduction generalizing n with
  | hnil => cases n <;> simp [take]
  | hcons t ts ih =>
    cases n with
    | zero => simp [length] at h
    | succ n => simp [length] at h; simp [take, ih n (by omega)]

end TrieL

/-- `copyInto` on a replicated destination with everything in range is
padding, the source, padding. -/
theorem copyInto_replicate {α : Type} (nl off : Nat) (src : TrieL α)
    (h : off + src.length ≤ nl) :
    copyInto (TrieL.replicate Trie.empty nl) off src =
      (TrieL.replicate Trie.empty off).append
        (src.append (TrieL.replicate Trie.empty (nl - off - src.length))) := by
  have h1 : min src.length (nl - off) = src.length := by omega
  rw [copyInto, TrieL.length_replicate, TrieL.take_replicate, TrieL.drop_replicate, h1,
    TrieL.take_of_length_le src (nl - off) (by omega)]
  have h2 : min off nl = off := by omega
  have h3 : nl - (off + src.length) = nl - off - src.length := by omega
  rw [h2, h3]

theorem commonPrefix_le_left (a b : List Nat) : commonPrefix a b ≤ a.length := by
  induction a generalizing b with
  | nil => simp [commonPrefix]
  | cons x xs ih =>
    cases b with
    | nil => simp [commonPrefix]
    | cons y ys =>
      by_cases h : x = y <;> simp only [commonPrefix, h, if_true, if_false, List.length_cons]
      · exact Nat.succ_le_succ (ih ys)
      · omega

theorem commonPrefix_le_right (a b : List Nat) : commonPrefix a b ≤ b.length := by
  induction a generalizing b with
  | nil => simp [commonPrefix]
  | cons x xs ih =>
    cases b with
    | nil => simp [commonPrefix]
    | cons y ys =>
      by_cases h : x = y <;> simp only [commonPrefix, h, if_true, if_false, List.length_cons]
      · exact Nat.succ_le_succ (ih ys)
      · omega

theorem commonPrefix_self (a : List Nat) : commonPrefix a a = a.length := by
  induction a with
  | nil => simp [commonPrefix]
  | cons x xs ih => simp [commonPrefix, ih]

theorem commonPrefix_append_left (x y z : List Nat) :
    commonPrefix (x ++ y) (x ++ z) = x.length + commonPrefix y z := by
  induction x with
  | nil => simp
  | cons a as ih => simp [commonPrefix, ih]; omega

theorem commonPrefix_comm (a b : List Nat) : commonPrefix a b = commonPrefix b a := by
  induction a generalizing b with
  | nil => cases b <;> simp [commonPrefix]
  | cons x xs ih =>
    cases b with
    | nil => simp [commonPrefix]
    | cons y ys =>
      by_cases h : x = y
      · simp [commonPrefix, h, ih]
      · have h2 : ¬ y = x := fun hh => h hh.symm
        simp [commonPrefix, h, h2]

theorem take_commonPrefix (a b : List Nat) (s : Nat) (hs : s ≤ commonPrefix a b) :
    a.take s = b.take s := by
  induction a generalizing b s with
  | nil =>
    cases b with
    | nil => rfl
    | cons y ys => simp [commonPrefix] at hs; simp [hs]
  | cons x xs ih =>
    cases b with
    | nil => simp [commonPrefix] at hs; simp [hs]
    | cons y ys =>
      by_cases h : x = y
      · subst h
        cases s with
        | zero => rfl
        | succ s =>
          simp [commonPrefix] at hs
          simp [List.take_succ_cons, ih ys s (by omega)]
      · simp [commonPrefix, h] at hs; simp [hs]

theorem commonPrefix_get_ne (a b : List Nat) (s : Nat) (h : s = commonPrefix a b)
    (ha : s < a.length) (hb : s < b.length) : a.get? s ≠ b.get? s := by
  induction a generalizing b s with
  | nil => simp at ha
  | cons x xs ih =>
    cases b with
    | nil => simp at hb
    | cons y ys =>
      by_cases hxy : x = y
      · subst hxy
        simp [commonPrefix] at h
        cases s with
        | zero => omega
        | succ s =>
          simp at ha hb
          simpa [List.get?] using ih ys s (by omega) (by omega) (by omega)
      · simp [commonPrefix, hxy] at h
        subst h
        simpa [List.get?] using hxy

theorem commonPrefix_of_isPrefix (a b : List Nat) (h : a <+: b) :
    commonPrefix a b = a.length := by
  obtain ⟨r, rfl⟩ := h
  have := commonPrefix_append_left a [] r
  simpa using this

/-- Decompose `b` at the common prefix with `a`: if `commonPrefix a b = a.length`
then `b = a ++ b.drop a.length`. -/
theorem eq_append_drop_of_commonPrefix (a b : List Nat) (h : commonPrefix a b = a.length) :
    b = a ++ b.drop a.length := by
  have h1 : a.take a.length = b.take a.length := take_commonPrefix a b a.length (by omega)
  simp at h1
  conv_lhs => rw [← List.take_append_drop a.length b, ← h1]

theorem bsub_eq (a b : Nat) (hb : b ≤ a) (ha : a < b + 256) : bsub a b = a - b := by
  unfold bsub
  have : a + 256 - b = (a - b) + 256 := by omega
  rw [this, Nat.add_mod_right, Nat.mod_eq_of_lt (by omega)]

set_option maxRecDepth 10000 in
theorem land_mask_eval : ∀ b : Fin 256, ∀ j : Fin 9,
    Nat.land b.1 (255 ^^^ (2 ^ j.1 - 1)) = b.1 - b.1 % 2 ^ j.1 := by decide

theorem land_mask (b j : Nat) (hb : b < 256) (hj : j ≤ 8) :
    Nat.land b (255 ^^^ (2 ^ j - 1)) = b - b % 2 ^ j :=
  land_mask_eval ⟨b, hb⟩ ⟨j, by omega⟩

/-! ### The growth loop: alignment and range postconditions -/

theorem growLoop_spec (c : Nat) (hc : c < 256) :
    ∀ fuel k b, b < 256 → k ≤ 8 → b % 2 ^ k = 0 → 9 - k ≤ fuel →
      ∃ k' b', growLoop c b (2 ^ k) fuel = (b', 2 ^ k') ∧
        k ≤ k' ∧ k' ≤ 8 ∧ b' % 2 ^ k' = 0 ∧ b' < 256 ∧
        b' ≤ c ∧ c < b' + 2 ^ k' ∧ b' ≤ b ∧ b + 2 ^ k ≤ b' + 2 ^ k' := by
  intro fuel
  induction fuel with
  | zero => intro k b _ hk _ hfuel; omega
  | succ fuel ih =>
    intro k b hb hk hmod hfuel
    rw [growLoop]
    by_cases hguard : c < b ∨ b + 2 ^ k ≤ c
    · -- the loop body runs
      have hk7 : k ≤ 7 := by
        by_contra hgt
        have hk8 : k = 8 := by omega
        subst hk8
        have : b = 0 := by omega
        omega
      have hstep1 : (growStep b (2 ^ k)).1 = b - b % 2 ^ (k + 1) := by
        show Nat.land b (bcompl (2 * 2 ^ k - 1)) = _
        have h2 : 2 * 2 ^ k = 2 ^ (k + 1) := by rw [Nat.pow_succ]; ring
        have h3 : (2 ^ (k + 1) - 1) % 256 = 2 ^ (k + 1) - 1 := by
          have : 2 ^ (k + 1) ≤ 256 := by
            calc 2 ^ (k + 1) ≤ 2 ^ 8 := Nat.pow_le_pow_right (by omega) (by omega)
            _ = 256 := by norm_num
          exact Nat.mod_eq_of_lt (by omega)
        rw [h2, bcompl, h3]
        exact land_mask b (k + 1) hb (by omega)
      have hstep2 : (growStep b (2 ^ k)).2 = 2 ^ (k + 1) := by
        show 2 * 2 ^ k = 2 ^ (k + 1)
        rw [Nat.pow_succ]; ring
      rw [if_pos hguard, hstep1, hstep2]
      have hmod2 : (b - b % 2 ^ (k + 1)) % 2 ^ (k + 1) = 0 := by
        conv_lhs => rw [show b - b % 2 ^ (k + 1) = 2 ^ (k + 1) * (b / 2 ^ (k + 1)) by
          have := Nat.div_add_mod b (2 ^ (k + 1)); omega]
        exact Nat.mul_mod_right _ _
      obtain ⟨k', b', heq, hk1, hk2, hm, hb', hbc, hcb, hle, hwin⟩ :=
        ih (k + 1) (b - b % 2 ^ (k + 1)) (by omega) (by omega) hmod2 (by omega)
      refine ⟨k', b', heq, by omega, hk2, hm, hb', hbc, hcb, by omega, ?_⟩
      -- b + 2^k ≤ b' + 2^k': since b % 2^(k+1) ≤ 2^k
      have hmlt : b % 2 ^ (k + 1) < 2 ^ (k + 1) := Nat.mod_lt _ (Nat.pos_pow_of_pos _ (by omega))
      have hdvd : 2 ^ k ∣ b % 2 ^ (k + 1) := by
        have h1 : 2 ^ k ∣ b := Nat.dvd_of_mod_eq_zero hmod
        have h2 : 2 ^ k ∣ 2 ^ (k + 1) := Nat.pow_dvd_pow 2 (by omega)
        exact (Nat.dvd_mod_iff h2).mpr h1
      have hmle : b % 2 ^ (k + 1) ≤ 2 ^ k := by
        rcases hdvd with ⟨m, hm2⟩
        have h2 : 2 ^ (k + 1) = 2 ^ k * 2 := by rw [Nat.pow_succ]
        rcases Nat.lt_or_ge m 2 with hm3 | hm3
        · interval_cases m <;> omega
        · exfalso; rw [hm2, h2] at hmlt; nlinarith [Nat.pos_pow_of_pos k (show 0 < 2 by omega)]
      have h2k : 2 ^ (k + 1) = 2 ^ k + 2 ^ k := by rw [Nat.pow_succ]; ring
      omega
    · rw [if_neg hguard]
      exact ⟨k, b, rfl, le_refl _, hk, hmod, hb, by omega, by omega, le_refl _, le_refl _⟩

theorem grow_spec (c b k : Nat) (hc : c < 256) (hb : b < 256) (hk : k ≤ 8)
    (hmod : b % 2 ^ k = 0) :
    ∃ k' b', grow c b (2 ^ k) = (b', 2 ^ k') ∧
      k ≤ k' ∧ k' ≤ 8 ∧ b' % 2 ^ k' = 0 ∧ b' < 256 ∧
      b' ≤ c ∧ c < b' + 2 ^ k' ∧ b' ≤ b ∧ b + 2 ^ k ≤ b' + 2 ^ k' :=
  growLoop_spec c hc 9 k b hb hk hmod (by omega)

/-! ### Well-formedness: the invariant maintained by `Put` -/

/-- A key is a Go string: a sequence of bytes. -/
def WFKey (k : List Nat) : Prop := ∀ x ∈ k, x < 256

mutual

/-- The structural invariant of a reachable trie node: suffix bytes and base
are bytes, and a non-empty child array has power-of-two length (at most 256)
with `base` a multiple of that length. -/
def wfT {α : Type} : Trie α → Prop
  | .mk sfx _ cs b =>
    (∀ x ∈ sfx, x < 256) ∧ b < 256 ∧
      (cs = .nil ∨ ∃ k, k ≤ 8 ∧ cs.length = 2 ^ k ∧ b % 2 ^ k = 0) ∧ wfL cs

def wfL {α : Type} : TrieL α → Prop
  | .nil => True
  | .cons t ts => wfT t ∧ wfL ts

end

theorem wfL_get {α : Type} (cs : TrieL α) (i : Nat) (t : Trie α)
    (hwf : wfL cs) (h : cs.get? i = some t) : wfT t := by
  induction cs using TrieL.listInduction generalizing i with
  | hnil => simp [TrieL.get?] at h
  | hcons u us ih =>
    rw [wfL] at hwf
    cases i with
    | zero => simp [TrieL.get?] at h; exact h ▸ hwf.1
    | succ i => exact ih i hwf.2 (by simpa [TrieL.get?] using h)

theorem wfL_replicate_empty {α : Type} (n : Nat) : wfL (TrieL.replicate (Trie.empty (α := α)) n) := by
  induction n with
  | zero => simp [TrieL.replicate, wfL]
  | succ n ih =>
    rw [TrieL.replicate, wfL]
    exact ⟨by rw [Trie.empty, wfT]; simp [wfL], ih⟩

theorem wfL_append {α : Type} (ts us : TrieL α) (h1 : wfL ts) (h2 : wfL us) :
    wfL (ts.append us) := by
  induction ts using TrieL.listInduction with
  | hnil => simpa [TrieL.append]
  | hcons t ts ih =>
    rw [wfL] at h1
    rw [TrieL.append, wfL]
    exact ⟨h1.1, ih h1.2⟩

theorem wfL_set {α : Type} (cs : TrieL α) (i : Nat) (u : Trie α)
    (hwf : wfL cs) (hu : wfT u) : wfL (cs.set i u) := by
  induction cs using TrieL.listInduction generalizing i with
  | hnil => simpa [TrieL.set]
  | hcons t ts ih =>
    rw [wfL] at hwf
    cases i with
    | zero => rw [TrieL.set, wfL]; exact ⟨hu, hwf.2⟩
    | succ i => rw [TrieL.set, wfL]; exact ⟨hwf.1, ih i hwf.2⟩

/-- Tries reachable from the zero value by a sequence of `Put` operations
with byte-string keys. -/
inductive Built {α : Type} : Trie α → Prop where
  | zero : Built Trie.empty
  | putStep (t : Trie α) (k : List Nat) (v : Option α) :
      Built t → WFKey k → Built (put t k v)

/-! ### Fuel congruence and one-step unfolding for `get` -/

theorem getF_congr {α : Type} :
    ∀ f1 f2 (t : Trie α) key, key.length < f1 → key.length < f2 →
      getF f1 t key = getF f2 t key := by
  intro f1
  induction f1 with
  | zero => intro f2 t key h1; omega
  | succ f1 ih =>
    intro f2 t key h1 h2
    cases f2 with
    | zero => omega
    | succ f2 =>
      by_cases hd : commonPrefix t.suffix key < t.suffix.length
      · simp [getF, hd]
      · by_cases ht : commonPrefix t.suffix key = key.length
        · simp [getF, hd, ht]
        · have hs : commonPrefix t.suffix key < key.length :=
            lt_of_le_of_ne (commonPrefix_le_right _ _) ht
          simp only [getF, if_neg hd, if_neg ht]
          cases hkb : key.get? (commonPrefix t.suffix key) with
          | none => rfl
          | some kb =>
            by_cases hr : kb < t.base ∨ t.base + t.children.length ≤ kb
            · simp [hr]
            · simp only [if_neg hr]
              cases hc : t.children.get? (bsub kb t.base) with
              | none => rfl
              | some c =>
                have hlen : (key.drop (commonPrefix t.suffix key + 1)).length < f1 := by
                  rw [List.length_drop]; omega
                have hlen2 : (key.drop (commonPrefix t.suffix key + 1)).length < f2 := by
                  rw [List.length_drop]; omega
                simpa using ih f2 c _ hlen hlen2

/-- One-step unfolding of `get` at a node. -/
theorem get_node {α : Type} (sfx : List Nat) (v : Option α) (cs : TrieL α) (b : Nat)
    (key : List Nat) :
    get (.mk sfx v cs b) key =
      (if commonPrefix sfx key < sfx.length then none
       else if commonPrefix sfx key = key.length then v
       else
         match key.get? (commonPrefix sfx key) with
         | none => none
         | some kb =>
           if kb < b ∨ b + cs.length ≤ kb then none
           else
             match cs.get? (bsub kb b) with
             | none => none
             | some c => get c (key.drop (commonPrefix sfx key + 1))) := by
  show (getF (key.length + 1) _ key).getD none = _
  by_cases hd : commonPrefix sfx key < sfx.length
  · simp [getF, Trie.suffix, hd]
  · by_cases ht : commonPrefix sfx key = key.length
    · rw [ht] at hd
      simp [getF, Trie.suffix, Trie.value, hd, ht]
    · have hs : commonPrefix sfx key < key.length := by
        have := commonPrefix_le_right sfx key
        cases Nat.lt_or_ge (commonPrefix sfx key) key.length with
        | inl h => exact h
        | inr h => omega
      simp only [getF, Trie.suffix, Trie.value, Trie.children, Trie.base, if_neg hd, if_neg ht]
      cases hkb : key.get? (commonPrefix sfx key) with
      | none => rfl
      | some kb =>
        by_cases hr : kb < b ∨ b + cs.length ≤ kb
        · simp [hr]
        · simp only [if_neg hr]
          cases hc : cs.get? (bsub kb b) with
          | none => rfl
          | some c =>
            show (getF (key.length) c _).getD none = (getC c _).getD none
            rw [getF_congr (key.length) ((key.drop (commonPrefix sfx key + 1)).length + 1) c _
              (by rw [List.length_drop]; omega) (by omega)]
            rfl

/-- A node with no value and no children rejects every key. -/
theorem get_empty_node {α : Type} (sfx : List Nat) (b : Nat) (q : List Nat) :
    get (Trie.mk (α := α) sfx none .nil b) q = none := by
  rw [get_node]
  by_cases hd : commonPrefix sfx q < sfx.length
  · simp [hd]
  · by_cases ht : commonPrefix sfx q = q.length
    · simp [hd, ht]
    · simp only [if_neg hd, if_neg ht]
      cases hkb : q.get? (commonPrefix sfx q) with
      | none => rfl
      | some kb => simp [TrieL.length]

theorem get_zero {α : Type} (q : List Nat) : get (Trie.empty (α := α)) q = none :=
  get_empty_node [] 0 q

/-! ### Semantic preservation lemmas for the structural steps of `Put` -/

/-- A shared leading segment of suffix and key can be chopped off. -/
theorem get_chop {α : Type} (x y z : List Nat) (v : Option α) (cs : TrieL α) (b : Nat) :
    get (.mk (x ++ y) v cs b) (x ++ z) = get (.mk y v cs b) z := by
  rw [get_node, get_node, commonPrefix_append_left]
  by_cases hd : commonPrefix y z < y.length
  · rw [if_pos (by simp only [List.length_append]; omega), if_pos hd]
  · rw [if_neg (by simp only [List.length_append]; omega), if_neg hd]
    by_cases ht : commonPrefix y z = z.length
    · rw [if_pos (by simp only [List.length_append]; omega), if_pos ht]
    · rw [if_neg (by simp only [List.length_append]; omega), if_neg ht]
      have hg : (x ++ z).get? (x.length + commonPrefix y z) = z.get? (commonPrefix y z) := by
        rw [List.get?_append_right (by omega)]
        congr 1
        omega
      rw [hg]
      cases z.get? (commonPrefix y z) with
      | none => rfl
      | some kb =>
        by_cases hr : kb < b ∨ b + cs.length ≤ kb
        · simp only [if_pos hr]
        · simp only [if_neg hr]
          have hdrop : (x ++ z).drop (x.length + commonPrefix y z + 1)
              = z.drop (commonPrefix y z + 1) := by
            rw [show x.length + commonPrefix y z + 1 = x.length + (commonPrefix y z + 1) by omega,
              List.drop_append]
          rw [hdrop]

theorem commonPrefix_append_of_lt (x r q : List Nat) (h : commonPrefix x q < x.length) :
    commonPrefix (x ++ r) q = commonPrefix x q := by
  induction x generalizing q with
  | nil => simp [List.length_nil] at h
  | cons a as ih =>
    cases q with
    | nil => rfl
    | cons c qs =>
      by_cases hac : a = c
      · subst hac
        have h1 : commonPrefix (a :: as) (a :: qs) = commonPrefix as qs + 1 := by
          simp [commonPrefix]
        have h2 : commonPrefix (a :: (as ++ r)) (a :: qs) = commonPrefix (as ++ r) qs + 1 := by
          simp [commonPrefix]
        rw [h1, List.length_cons] at h
        rw [List.cons_append, h2, h1, ih qs (by omega)]
      · have h1 : commonPrefix (a :: as) (c :: qs) = 0 := by simp [commonPrefix, hac]
        have h2 : commonPrefix (a :: (as ++ r)) (c :: qs) = 0 := by simp [commonPrefix, hac]
        rw [List.cons_append, h2, h1]

theorem eq_of_commonPrefix_lengths (a b : List Nat) (h : commonPrefix a b = a.length)
    (hl : a.length = b.length) : a = b := by
  have h1 : a.take a.length = b.take a.length := take_commonPrefix a b a.length (by omega)
  rw [List.take_length, hl, List.take_length] at h1
  exact h1

theorem base_window (b k : Nat) (hb : b < 256) (hk : k ≤ 8) (hmod : b % 2 ^ k = 0) :
    b + 2 ^ k ≤ 256 := by
  have hpos : 0 < 2 ^ k := Nat.pos_pow_of_pos _ (by omega)
  rcases Nat.dvd_of_mod_eq_zero hmod with ⟨m, rfl⟩
  have h8 : (2 : Nat) ^ 8 = 256 := by norm_num
  have hkk : k + (8 - k) = 8 := by omega
  have hm : m < 2 ^ (8 - k) := by
    by_contra hge
    push_neg at hge
    have h1 : 2 ^ k * 2 ^ (8 - k) ≤ 2 ^ k * m := Nat.mul_le_mul_left _ hge
    rw [← Nat.pow_add, hkk, h8] at h1
    omega
  have h2 : 2 ^ k * (m + 1) ≤ 2 ^ k * 2 ^ (8 - k) := Nat.mul_le_mul_left _ (by omega)
  rw [← Nat.pow_add, hkk, h8, Nat.mul_succ] at h2
  omega

/-! ### Branch-specific forms of `get_node` -/

theorem get_node_lt {α : Type} {sfx : List Nat} {v : Option α} {cs : TrieL α} {b : Nat}
    {q : List Nat} (h : commonPrefix sfx q < sfx.length) :
    get (.mk sfx v cs b) q = none := by
  rw [get_node, if_pos h]

theorem get_node_val {α : Type} {sfx : List Nat} {v : Option α} {cs : TrieL α} {b : Nat}
    {q : List Nat} (h1 : ¬ commonPrefix sfx q < sfx.length)
    (h2 : commonPrefix sfx q = q.length) :
    get (.mk sfx v cs b) q = v := by
  rw [get_node, if_neg h1, if_pos h2]

theorem get_node_out {α : Type} {sfx : List Nat} {v : Option α} {cs : TrieL α} {b : Nat}
    {q : List Nat} {kb : Nat} (h1 : ¬ commonPrefix sfx q < sfx.length)
    (h2 : ¬ commonPrefix sfx q = q.length)
    (hqb : q.get? (commonPrefix sfx q) = some kb)
    (hr : kb < b ∨ b + cs.length ≤ kb) :
    get (.mk sfx v cs b) q = none := by
  rw [get_node, if_neg h1, if_neg h2, hqb]
  show (if kb < b ∨ b + cs.length ≤ kb then none else _) = none
  rw [if_pos hr]

theorem get_node_child {α : Type} {sfx : List Nat} {v : Option α} {cs : TrieL α} {b : Nat}
    {q : List Nat} {kb : Nat} {c : Trie α} (h1 : ¬ commonPrefix sfx q < sfx.length)
    (h2 : ¬ commonPrefix sfx q = q.length)
    (hqb : q.get? (commonPrefix sfx q) = some kb)
    (hr : ¬ (kb < b ∨ b + cs.length ≤ kb))
    (hc : cs.get? (bsub kb b) = some c) :
    get (.mk sfx v cs b) q = get c (q.drop (commonPrefix sfx q + 1)) := by
  rw [get_node, if_neg h1, if_neg h2, hqb]
  show (if kb < b ∨ b + cs.length ≤ kb then none else _) = _
  rw [if_neg hr, hc]

theorem get_node_child_none {α : Type} {sfx : List Nat} {v : Option α} {cs : TrieL α} {b : Nat}
    {q : List Nat} {kb : Nat} (h1 : ¬ commonPrefix sfx q < sfx.length)
    (h2 : ¬ commonPrefix sfx q = q.length)
    (hqb : q.get? (commonPrefix sfx q) = some kb)
    (hr : ¬ (kb < b ∨ b + cs.length ≤ kb))
    (hc : cs.get? (bsub kb b) = none) :
    get (.mk sfx v cs b) q = none := by
  rw [get_node, if_neg h1, if_neg h2, hqb]
  show (if kb < b ∨ b + cs.length ≤ kb then none else _) = _
  rw [if_neg hr, hc]

theorem get_node_nokey {α : Type} {sfx : List Nat} {v : Option α} {cs : TrieL α} {b : Nat}
    {q : List Nat} (h1 : ¬ commonPrefix sfx q < sfx.length)
    (h2 : ¬ commonPrefix sfx q = q.length)
    (hqb : q.get? (commonPrefix sfx q) = none) :
    get (.mk sfx v cs b) q = none := by
  rw [get_node, if_neg h1, if_neg h2, hqb]

/-- In the descending branch of `get` the selector byte always exists. -/
theorem get_sel_some (sfx q : List Nat) (h1 : ¬ commonPrefix sfx q < sfx.length)
    (h2 : ¬ commonPrefix sfx q = q.length) :
    ∃ kb, q.get? (commonPrefix sfx q) = some kb ∧ kb ∈ q := by
  have hle := commonPrefix_le_right sfx q
  have hlt : commonPrefix sfx q < q.length := by omega
  cases hqb : q.get? (commonPrefix sfx q) with
  | none => rw [List.get?_eq_none] at hqb; omega
  | some kb => exact ⟨kb, rfl, List.get?_mem hqb⟩

theorem length_copyInto_replicate {α : Type} (nl off : Nat) (src : TrieL α)
    (h : off + src.length ≤ nl) :
    (copyInto (TrieL.replicate Trie.empty nl) off src).length = nl := by
  rw [copyInto_replicate _ _ _ h, TrieL.length_append, TrieL.length_append,
    TrieL.length_replicate, TrieL.length_replicate]
  omega

theorem get?_copyInto_replicate {α : Type} (nl off : Nat) (src : TrieL α)
    (h : off + src.length ≤ nl) (i : Nat) :
    (copyInto (TrieL.replicate Trie.empty nl) off src).get? i =
      if off ≤ i ∧ i < off + src.length then src.get? (i - off)
      else if i < nl then some Trie.empty else none := by
  rw [copyInto_replicate _ _ _ h]
  by_cases h1 : i < off
  · have hL : ((TrieL.replicate (Trie.empty (α := α)) off).append
        (src.append (TrieL.replicate Trie.empty (nl - off - src.length)))).get? i
        = some Trie.empty := by
      rw [TrieL.get?_append, TrieL.length_replicate, if_pos h1, TrieL.get?_replicate, if_pos h1]
    rw [hL, if_neg (by omega), if_pos (by omega)]
  · by_cases h2 : i < off + src.length
    · have hL : ((TrieL.replicate (Trie.empty (α := α)) off).append
          (src.append (TrieL.replicate Trie.empty (nl - off - src.length)))).get? i
          = src.get? (i - off) := by
        rw [TrieL.get?_append, TrieL.length_replicate, if_neg h1, TrieL.get?_append,
          if_pos (by omega)]
      rw [hL, if_pos (by omega)]
    · have hL : ((TrieL.replicate (Trie.empty (α := α)) off).append
          (src.append (TrieL.replicate Trie.empty (nl - off - src.length)))).get? i
          = if i - off - src.length < nl - off - src.length then some Trie.empty else none := by
        rw [TrieL.get?_append, TrieL.length_replicate, if_neg h1, TrieL.get?_append,
          if_neg (by omega), TrieL.get?_replicate]
      rw [hL]
      by_cases h3 : i < nl
      · rw [if_pos (by omega), if_neg (by omega), if_pos h3]
      · rw [if_neg (by omega), if_neg (by omega), if_neg h3]

/-- Allocating a fresh singleton child array on a node with no children does
not change any lookup (the sole slot holds the empty trie). -/
theorem get_newchild {α : Type} (sfx : List Nat) (v : Option α) (b kb : Nat) (q : List Nat) :
    get (.mk sfx v (.cons Trie.empty .nil) kb) q = get (.mk sfx v .nil b) q := by
  by_cases hd : commonPrefix sfx q < sfx.length
  · rw [get_node_lt hd, get_node_lt hd]
  · by_cases ht : commonPrefix sfx q = q.length
    · rw [get_node_val hd ht, get_node_val hd ht]
    · obtain ⟨qb, hqb, _⟩ := get_sel_some sfx q hd ht
      have hR : get (.mk sfx v (.nil : TrieL α) b) q = none :=
        get_node_out hd ht hqb (by rw [TrieL.length]; omega)
      rw [hR]
      by_cases hr : qb < kb ∨ kb + TrieL.length (.cons (Trie.empty (α := α)) .nil) ≤ qb
      · exact get_node_out hd ht hqb hr
      · have hqbkb : qb = kb := by
          rw [TrieL.length, TrieL.length] at hr
          omega
        subst hqbkb
        have h0 : bsub qb qb = 0 := by unfold bsub; omega
        have hcz : TrieL.get? (.cons (Trie.empty (α := α)) .nil) (bsub qb qb)
            = some Trie.empty := by
          rw [h0, TrieL.get?]
        rw [get_node_child hd ht hqb hr hcz, get_zero]

/-- Growing the child array (doubling and re-aligning the base, copying the
old entries at their new offsets) does not change any lookup. -/
theorem get_regrow {α : Type} (sfx : List Nat) (v : Option α) (cs : TrieL α) (b nb nl : Nat)
    (q : List Nat)
    (hle : nb ≤ b) (hwin : b + cs.length ≤ nb + nl)
    (hb256 : b < 256) (hnew256 : nb + nl ≤ 256)
    (hq : ∀ x ∈ q, x < 256) :
    get (.mk sfx v (copyInto (TrieL.replicate Trie.empty nl) (bsub b nb) cs) nb) q
      = get (.mk sfx v cs b) q := by
  have hoff : bsub b nb = b - nb := bsub_eq b nb hle (by omega)
  have hofflen : (b - nb) + cs.length ≤ nl := by omega
  have hlen : (copyInto (TrieL.replicate (Trie.empty (α := α)) nl) (bsub b nb) cs).length = nl := by
    rw [hoff]; exact length_copyInto_replicate _ _ _ hofflen
  by_cases hd : commonPrefix sfx q < sfx.length
  · rw [get_node_lt hd, get_node_lt hd]
  · by_cases ht : commonPrefix sfx q = q.length
    · rw [get_node_val hd ht, get_node_val hd ht]
    · obtain ⟨qb, hqb, hqmem⟩ := get_sel_some sfx q hd ht
      have hqb256 : qb < 256 := hq qb hqmem
      by_cases hold : qb < b ∨ b + cs.length ≤ qb
      · rw [get_node_out hd ht hqb hold]
        by_cases hnewr : qb < nb ∨ nb + nl ≤ qb
        · rw [get_node_out hd ht hqb (by rw [hlen]; exact hnewr)]
        · have hidx : bsub qb nb = qb - nb := bsub_eq qb nb (by omega) (by omega)
          have hcz : (copyInto (TrieL.replicate (Trie.empty (α := α)) nl) (bsub b nb) cs).get?
              (bsub qb nb) = some Trie.empty := by
            rw [hoff, hidx, get?_copyInto_replicate _ _ _ hofflen,
              if_neg (by omega), if_pos (by omega)]
          rw [get_node_child hd ht hqb (by rw [hlen]; exact hnewr) hcz, get_zero]
      · have hidx : bsub qb nb = qb - nb := bsub_eq qb nb (by omega) (by omega)
        have hidx2 : bsub qb b = qb - b := bsub_eq qb b (by omega) (by omega)
        cases hcold : cs.get? (bsub qb b) with
        | none =>
          rw [TrieL.get?_eq_none_iff, hidx2] at hcold
          omega
        | some c =>
          have hcnew : (copyInto (TrieL.replicate (Trie.empty (α := α)) nl) (bsub b nb) cs).get?
              (bsub qb nb) = some c := by
            rw [hoff, hidx, get?_copyInto_replicate _ _ _ hofflen, if_pos (by omega)]
            rw [show qb - nb - (b - nb) = qb - b by omega, ← hidx2]
            exact hcold
          rw [get_node_child hd ht hqb (by rw [hlen]; omega) hcnew,
            get_node_child hd ht hqb hold hcold]

/-- Splitting a node (pushing its contents one level down at the byte where
the suffix diverges) does not change any lookup. -/
theorem get_split {α : Type} (sfx : List Nat) (v : Option α) (cs : TrieL α) (b : Nat)
    (s sb nb nl : Nat) (q : List Nat)
    (hsfxwf : ∀ x ∈ sfx, x < 256)
    (hs : s < sfx.length) (hsb : sfx.get? s = some sb)
    (hlo : nb ≤ sb) (hhi : sb < nb + nl) (hnew256 : nb + nl ≤ 256)
    (hq : ∀ x ∈ q, x < 256) :
    get (.mk (sfx.take s) none ((TrieL.replicate Trie.empty nl).set (bsub sb nb)
        (.mk (sfx.drop (s + 1)) v cs b)) nb) q
      = get (.mk sfx v cs b) q := by
  have hsb256 : sb < 256 := hsfxwf sb (List.get?_mem hsb)
  have hidx0 : bsub sb nb = sb - nb := bsub_eq sb nb hlo (by omega)
  have hlentake : (sfx.take s).length = s := by rw [List.length_take]; omega
  obtain ⟨hslen, hget⟩ := List.get?_eq_some.mp hsb
  have hdrop_decomp : sfx.drop s = sb :: sfx.drop (s + 1) := by
    rw [List.drop_eq_getElem_cons hslen]
    have h6 : sfx[s] = sfx.get ⟨s, hslen⟩ := (List.get_eq_getElem sfx ⟨s, hslen⟩).symm
    rw [h6, hget]
  have hsfx_decomp : sfx = sfx.take s ++ sb :: sfx.drop (s + 1) := by
    conv_lhs => rw [← List.take_append_drop s sfx]
    rw [hdrop_decomp]
  have hlen_newch :
      ((TrieL.replicate (Trie.empty (α := α)) nl).set (bsub sb nb)
        (.mk (sfx.drop (s + 1)) v cs b)).length = nl := by
    rw [TrieL.length_set, TrieL.length_replicate]
  by_cases hc : commonPrefix (sfx.take s) q < s
  · -- q diverges inside the retained prefix: both sides reject
    have hcp : commonPrefix sfx q = commonPrefix (sfx.take s) q := by
      conv_lhs => rw [hsfx_decomp]
      exact commonPrefix_append_of_lt _ _ _ (by omega)
    rw [get_node_lt (by omega), get_node_lt (by omega)]
  · -- the retained prefix is a prefix of q
    have hcs : commonPrefix (sfx.take s) q = s := by
      have h1 := commonPrefix_le_left (sfx.take s) q
      omega
    have hqdec : q = sfx.take s ++ q.drop s := by
      have h2 := eq_append_drop_of_commonPrefix (sfx.take s) q (by omega)
      rwa [hlentake] at h2
    have hL := get_chop (sfx.take s) [] (q.drop s) (none : Option α)
      ((TrieL.replicate Trie.empty nl).set (bsub sb nb) (.mk (sfx.drop (s + 1)) v cs b)) nb
    rw [List.append_nil] at hL
    have hR := get_chop (sfx.take s) (sb :: sfx.drop (s + 1)) (q.drop s) v cs b
    rw [← hsfx_decomp] at hR
    conv_lhs => rw [hqdec]
    conv_rhs => rw [hqdec]
    rw [hL, hR]
    -- both sides are now rooted below the retained prefix
    cases hq' : q.drop s with
    | nil =>
      have e1 : get (.mk ([] : List Nat) (none : Option α)
          ((TrieL.replicate Trie.empty nl).set (bsub sb nb)
            (.mk (sfx.drop (s + 1)) v cs b)) nb) [] = none :=
        get_node_val (by simp [commonPrefix]) (by simp [commonPrefix])
      have e2 : get (.mk (sb :: sfx.drop (s + 1)) v cs b) [] = none :=
        get_node_lt (by simp [commonPrefix])
      rw [e1, e2]
    | cons qb q'' =>
      have hqb256 : qb < 256 := by
        have hmem : qb ∈ q := by
          have h3 : qb ∈ q.drop s := by rw [hq']; exact List.mem_cons_self _ _
          exact List.mem_of_mem_drop h3
        exact hq qb hmem
      have h1' : ¬ commonPrefix ([] : List Nat) (qb :: q'') < ([] : List Nat).length := by
        simp
      have h2' : ¬ commonPrefix ([] : List Nat) (qb :: q'') = (qb :: q'').length := by
        show ¬ (0 = (qb :: q'').length)
        simp
      have hsel : (qb :: q'').get? (commonPrefix ([] : List Nat) (qb :: q'')) = some qb := rfl
      by_cases hqbsb : qb = sb
      · subst hqbsb
        have hr' : ¬ (qb < nb ∨
            nb + ((TrieL.replicate (Trie.empty (α := α)) nl).set (bsub qb nb)
              (.mk (sfx.drop (s + 1)) v cs b)).length ≤ qb) := by
          rw [hlen_newch]; omega
        have hcz : ((TrieL.replicate (Trie.empty (α := α)) nl).set (bsub qb nb)
            (.mk (sfx.drop (s + 1)) v cs b)).get? (bsub qb nb)
            = some (.mk (sfx.drop (s + 1)) v cs b) := by
          rw [TrieL.get?_set, if_pos ⟨rfl, by rw [TrieL.length_replicate, hidx0]; omega⟩]
        rw [get_node_child h1' h2' hsel hr' hcz]
        have eR : get (.mk (qb :: sfx.drop (s + 1)) v cs b) (qb :: q'')
            = get (.mk (sfx.drop (s + 1)) v cs b) q'' := by
          have h4 := get_chop [qb] (sfx.drop (s + 1)) q'' v cs b
          simpa using h4
        rw [eR]
        rfl
      · have hsbqb : ¬ sb = qb := fun h => hqbsb h.symm
        have hcpR : commonPrefix (sb :: sfx.drop (s + 1)) (qb :: q'') = 0 := by
          simp [commonPrefix, hsbqb]
        have eR : get (.mk (sb :: sfx.drop (s + 1)) v cs b) (qb :: q'') = none :=
          get_node_lt (by rw [hcpR]; simp)
        rw [eR]
        by_cases hr : qb < nb ∨ nb + nl ≤ qb
        · exact get_node_out h1' h2' hsel (by rw [hlen_newch]; exact hr)
        · have hidxq : bsub qb nb = qb - nb := bsub_eq qb nb (by omega) (by omega)
          have hr' : ¬ (qb < nb ∨
              nb + ((TrieL.replicate (Trie.empty (α := α)) nl).set (bsub sb nb)
                (.mk (sfx.drop (s + 1)) v cs b)).length ≤ qb) := by
            rw [hlen_newch]; exact hr
          have hcz : ((TrieL.replicate (Trie.empty (α := α)) nl).set (bsub sb nb)
              (.mk (sfx.drop (s + 1)) v cs b)).get? (bsub qb nb) = some Trie.empty := by
            rw [TrieL.get?_set, if_neg (by
              intro hcon
              rw [hidx0, hidxq] at hcon
              exact hsbqb (by omega))]
            rw [TrieL.get?_replicate, if_pos (by omega)]
          rw [get_node_child h1' h2' hsel hr' hcz, get_zero]

/-! ### Specifications of the `Put` phases -/

theorem TrieL.length_eq_zero {α : Type} (ts : TrieL α) (h : ts.length = 0) : ts = .nil := by
  cases ts with
  | nil => rfl
  | cons t ts => rw [TrieL.length] at h; omega

theorem commonPrefix_take_self (key : List Nat) (s : Nat) (hs : s ≤ key.length) :
    commonPrefix (key.take s) key = s := by
  rw [commonPrefix_of_isPrefix _ _ (List.take_prefix s key), List.length_take]
  omega

theorem putSplit_spec {α : Type} (sfx : List Nat) (v : Option α) (cs : TrieL α) (b : Nat)
    (key : List Nat) (hwf : wfT (.mk sfx v cs b)) (hkey : WFKey key) :
    ∃ t1, putSplit sfx v cs b key (commonPrefix sfx key) = some t1 ∧ wfT t1 ∧
      t1.suffix = sfx.take (commonPrefix sfx key) ∧
      t1.suffix.length = commonPrefix sfx key ∧
      (∀ q, WFKey q → get t1 q = get (.mk sfx v cs b) q) := by
  rw [wfT] at hwf
  obtain ⟨hsfx, hb, halign, hwcs⟩ := hwf
  by_cases hs : commonPrefix sfx key < sfx.length
  · -- split happens
    cases hsb : sfx.get? (commonPrefix sfx key) with
    | none => rw [List.get?_eq_none] at hsb; omega
    | some sb =>
      have hsb256 : sb < 256 := hsfx sb (List.get?_mem hsb)
      have hwpushed : wfT (.mk (sfx.drop (commonPrefix sfx key + 1)) v cs b) := by
        rw [wfT]
        exact ⟨fun x hx => hsfx x (List.mem_of_mem_drop hx), hb, halign, hwcs⟩
      by_cases hsk : commonPrefix sfx key < key.length
      · cases hkb : key.get? (commonPrefix sfx key) with
        | none => rw [List.get?_eq_none] at hkb; omega
        | some kb =>
          have hkb256 : kb < 256 := hkey kb (List.get?_mem hkb)
          obtain ⟨k', nb, heq, _, hk', hmod, hnb256, _, _, hlo, hwin⟩ :=
            grow_spec kb sb 0 hkb256 hsb256 (by omega) (by omega)
          rw [pow_zero] at heq hwin
          have hnew256 : nb + 2 ^ k' ≤ 256 := base_window nb k' hnb256 hk' hmod
          refine ⟨.mk (sfx.take (commonPrefix sfx key)) none
            ((TrieL.replicate Trie.empty (2 ^ k')).set (bsub sb nb)
              (.mk (sfx.drop (commonPrefix sfx key + 1)) v cs b)) nb, ?_, ?_, rfl, ?_, ?_⟩
          · simp only [putSplit, if_pos hs, hsb, if_pos hsk, hkb, heq]
            rw [if_pos (by rw [bsub_eq sb nb hlo (by omega)]; omega)]
          · rw [wfT]
            refine ⟨fun x hx => hsfx x (List.mem_of_mem_take hx), hnb256, Or.inr ⟨k', hk', ?_, ?_⟩, ?_⟩
            · rw [TrieL.length_set, TrieL.length_replicate]
            · exact hmod
            · exact wfL_set _ _ _ (wfL_replicate_empty _) hwpushed
          · rw [Trie.suffix, List.length_take]; omega
          · intro q hq
            exact get_split sfx v cs b (commonPrefix sfx key) sb nb (2 ^ k') q hsfx hs hsb
              hlo (by omega) hnew256 hq
      · refine ⟨.mk (sfx.take (commonPrefix sfx key)) none
          ((TrieL.replicate Trie.empty 1).set (bsub sb sb)
            (.mk (sfx.drop (commonPrefix sfx key + 1)) v cs b)) sb, ?_, ?_, rfl, ?_, ?_⟩
        · simp only [putSplit, if_pos hs, hsb, if_neg hsk]
          rw [if_pos (by show bsub sb sb < 1; rw [bsub_eq sb sb (by omega) (by omega)]; omega)]
        · rw [wfT]
          refine ⟨fun x hx => hsfx x (List.mem_of_mem_take hx), hsb256,
            Or.inr ⟨0, by omega, ?_, by omega⟩, ?_⟩
          · rw [TrieL.length_set, TrieL.length_replicate]; norm_num
          · exact wfL_set _ _ _ (wfL_replicate_empty _) hwpushed
        · rw [Trie.suffix, List.length_take]; omega
        · intro q hq
          exact get_split sfx v cs b (commonPrefix sfx key) sb sb 1 q hsfx hs hsb
            (by omega) (by omega) (by omega) hq
  · -- no split: the node is returned unchanged
    have hlen : commonPrefix sfx key = sfx.length := by
      have := commonPrefix_le_left sfx key
      omega
    refine ⟨_, by rw [putSplit, if_neg hs], by rw [wfT]; exact ⟨hsfx, hb, halign, hwcs⟩, ?_, ?_, ?_⟩
    · rw [Trie.suffix, List.take_of_length_le (by omega)]
    · rw [Trie.suffix]; omega
    · intro q hq; rfl

theorem putPrep_spec {α : Type} (cs1 : TrieL α) (b1 kb : Nat)
    (hb1 : b1 < 256) (hkb : kb < 256)
    (halign : cs1 = .nil ∨ ∃ k, k ≤ 8 ∧ cs1.length = 2 ^ k ∧ b1 % 2 ^ k = 0)
    (hwf : wfL cs1) :
    ∃ cs2 b2, putPrep cs1 b1 kb = some (cs2, b2) ∧ wfL cs2 ∧
      (∃ k2, k2 ≤ 8 ∧ cs2.length = 2 ^ k2 ∧ b2 % 2 ^ k2 = 0) ∧ b2 < 256 ∧
      b2 ≤ kb ∧ kb < b2 + cs2.length ∧
      (∀ (sfx : List Nat) (v : Option α) q, WFKey q →
        get (.mk sfx v cs2 b2) q = get (.mk sfx v cs1 b1) q) := by
  by_cases hz : cs1.length = 0
  · have hnil : cs1 = .nil := TrieL.length_eq_zero cs1 hz
    subst hnil
    refine ⟨.cons Trie.empty .nil, kb, by rw [putPrep, if_pos hz], ?_, ⟨0, by omega, ?_, by omega⟩,
      hkb, by omega, ?_, ?_⟩
    · rw [wfL]
      exact ⟨by rw [Trie.empty, wfT]; simp [wfL], trivial⟩
    · rw [TrieL.length, TrieL.length]; norm_num
    · rw [TrieL.length, TrieL.length]; omega
    · intro sfx v q hq
      exact get_newchild sfx v b1 kb q
  · obtain ⟨k, hk, hlen, hmod⟩ := halign.resolve_left (fun h => hz (by rw [h, TrieL.length]))
    obtain ⟨k', nb, heq, hkk', hk', hmod', hnb256, hnlo, hnhi, hble, hwin⟩ :=
      grow_spec kb b1 k hkb hb1 hk hmod
    rw [← hlen] at heq hwin
    have hnew256 : nb + 2 ^ k' ≤ 256 := base_window nb k' hnb256 hk' hmod'
    by_cases hne : (2 : Nat) ^ k' ≠ cs1.length
    · -- the array grows: copy old entries at their new offsets
      have hoff : bsub b1 nb = b1 - nb := bsub_eq b1 nb hble (by omega)
      have hofflen : (b1 - nb) + cs1.length ≤ 2 ^ k' := by omega
      refine ⟨copyInto (TrieL.replicate Trie.empty (2 ^ k')) (bsub b1 nb) cs1, nb, ?_, ?_,
        ⟨k', hk', ?_, hmod'⟩, hnb256, hnlo, ?_, ?_⟩
      · simp only [putPrep, if_neg hz, heq]
        rw [if_pos hne, if_pos (by rw [hoff]; omega)]
      · rw [hoff, copyInto_replicate _ _ _ hofflen]
        exact wfL_append _ _ (wfL_replicate_empty _)
          (wfL_append _ _ hwf (wfL_replicate_empty _))
      · rw [hoff]; exact length_copyInto_replicate _ _ _ hofflen
      · rw [hoff, length_copyInto_replicate _ _ _ hofflen]; omega
      · intro sfx v q hq
        exact get_regrow sfx v cs1 b1 nb (2 ^ k') q hble (by omega) hb1 hnew256 hq
    · -- zero iterations: the array already accommodates kb
      push_neg at hne
      have hkeq : k' = k := by
        have h2 : (2 : Nat) ^ k' = 2 ^ k := by rw [hne, hlen]
        exact Nat.pow_right_injective (by omega) h2
      have hbeq : nb = b1 := by
        subst hkeq
        rw [hlen] at hwin
        omega
      refine ⟨cs1, b1, ?_, hwf, ⟨k, hk, hlen, hmod⟩, hb1, by omega, by omega, ?_⟩
      · simp only [putPrep, if_neg hz, heq]
        rw [if_neg (by rw [hne]; simp)]
      · intro sfx v q hq
        rfl

theorem isEmptyNode_iff {α : Type} (v : Option α) (cs : TrieL α) :
    isEmptyNode v cs = true ↔ v = none ∧ cs = .nil := by
  cases v <;> cases cs <;> simp [isEmptyNode]

/-- The stored value of a node only affects the lookup of its own path. -/
theorem get_value_irrel {α : Type} (sfx : List Nat) (v v' : Option α) (cs : TrieL α) (b : Nat)
    (q : List Nat) (hne : q ≠ sfx) :
    get (.mk sfx v cs b) q = get (.mk sfx v' cs b) q := by
  by_cases hd : commonPrefix sfx q < sfx.length
  · rw [get_node_lt hd, get_node_lt hd]
  · by_cases ht : commonPrefix sfx q = q.length
    · exfalso
      have h1 := commonPrefix_le_left sfx q
      have h2 : commonPrefix sfx q = sfx.length := by omega
      have h3 : sfx = q := eq_of_commonPrefix_lengths sfx q h2 (by omega)
      exact hne h3.symm
    · obtain ⟨qb, hqb, _⟩ := get_sel_some sfx q hd ht
      by_cases hr : qb < b ∨ b + cs.length ≤ qb
      · rw [get_node_out hd ht hqb hr, get_node_out hd ht hqb hr]
      · cases hc : cs.get? (bsub qb b) with
        | none => rw [get_node_child_none hd ht hqb hr hc, get_node_child_none hd ht hqb hr hc]
        | some c => rw [get_node_child hd ht hqb hr hc, get_node_child hd ht hqb hr hc]

/-- Two keys agreeing on their first `s+1` bytes and their tails are equal. -/
theorem key_ext (q key : List Nat) (s : Nat) (qb : Nat)
    (hq : q.get? s = some qb) (hk : key.get? s = some qb)
    (htake : q.take s = key.take s) (hdrop : q.drop (s + 1) = key.drop (s + 1)) :
    q = key := by
  have h1 : q.take (s + 1) = key.take (s + 1) := by
    rw [List.take_succ, List.take_succ, ← List.get?_eq_getElem?, ← List.get?_eq_getElem?,
      hq, hk, htake]
  calc q = q.take (s + 1) ++ q.drop (s + 1) := (List.take_append_drop _ q).symm
    _ = key.take (s + 1) ++ key.drop (s + 1) := by rw [h1, hdrop]
    _ = key := List.take_append_drop _ key

/-- Full specification of (checked) `Put`: it succeeds, preserves the
invariant, stores the value at the key, and changes no other lookup. -/
theorem putF_spec {α : Type} :
    ∀ fuel (t : Trie α) key v, key.length < fuel → wfT t → WFKey key →
      ∃ t', putF fuel t key v = some t' ∧ wfT t' ∧ get t' key = v ∧
        (∀ q, WFKey q → q ≠ key → get t' q = get t q) := by
  intro fuel
  induction fuel with
  | zero => intro t key v h _ _; omega
  | succ fuel ih =>
    intro t key v hlen hwf hkey
    obtain ⟨sfx, v0, cs, b⟩ := t
    by_cases hemp : isEmptyNode v0 cs = true
    · -- empty node fast path
      obtain ⟨rfl, rfl⟩ := (isEmptyNode_iff v0 cs).mp hemp
      have hb : b < 256 := by rw [wfT] at hwf; exact hwf.2.1
      refine ⟨.mk key v .nil b, by rw [putF, if_pos hemp], ?_, ?_, ?_⟩
      · rw [wfT]
        exact ⟨hkey, hb, Or.inl rfl, trivial⟩
      · exact get_node_val (by rw [commonPrefix_self]; omega) (commonPrefix_self key)
      · intro q hq hne
        rw [get_empty_node]
        by_cases hd : commonPrefix key q < key.length
        · exact get_node_lt hd
        · have hcp : commonPrefix key q = key.length := by
            have := commonPrefix_le_left key q
            omega
          by_cases ht : commonPrefix key q = q.length
          · exact absurd (eq_of_commonPrefix_lengths key q hcp (by omega)).symm hne
          · obtain ⟨qb, hqb, _⟩ := get_sel_some key q hd ht
            exact get_node_out hd ht hqb (by rw [TrieL.length]; omega)
    · -- general path
      obtain ⟨t1, hsplit, hwf1, hsfx1, hlen1, hpres1⟩ := putSplit_spec sfx v0 cs b key hwf hkey
      obtain ⟨sfx1, v1, cs1, b1⟩ := t1
      rw [Trie.suffix] at hsfx1 hlen1
      rw [wfT] at hwf1
      obtain ⟨hsfx1w, hb1, halign1, hwcs1⟩ := hwf1
      have hsle : commonPrefix sfx key ≤ key.length := commonPrefix_le_right sfx key
      have htakekey : sfx1 = key.take (commonPrefix sfx key) := by
        rw [hsfx1]
        exact take_commonPrefix sfx key _ (le_refl _)
      have hcp1 : commonPrefix sfx1 key = commonPrefix sfx key := by
        rw [htakekey]
        exact commonPrefix_take_self key _ hsle
      by_cases hskey : commonPrefix sfx key = key.length
      · -- the key terminates exactly at this node: replace the value
        have hsfx1key : sfx1 = key := by
          rw [htakekey, hskey, List.take_length]
        refine ⟨.mk sfx1 v cs1 b1, ?_, ?_, ?_, ?_⟩
        · rw [putF, if_neg hemp]
          simp only [hsplit, Option.some_bind, if_pos hskey, Trie.suffix, Trie.children, Trie.base]
        · rw [wfT]
          exact ⟨hsfx1w, hb1, halign1, hwcs1⟩
        · exact get_node_val (by rw [hcp1, hskey, hlen1]; omega) (by rw [hcp1, hskey])
        · intro q hq hne
          rw [get_value_irrel sfx1 v v1 cs1 b1 q (by rw [hsfx1key]; exact hne)]
          exact hpres1 q hq
      · -- descend into the child selected by key[s]
        have hsk : commonPrefix sfx key < key.length := by omega
        cases hkb : key.get? (commonPrefix sfx key) with
        | none => rw [List.get?_eq_none] at hkb; omega
        | some kb =>
          have hkb256 : kb < 256 := hkey kb (List.get?_mem hkb)
          obtain ⟨cs2, b2, hprep, hwfcs2, halign2, hb2, hlo2, hhi2, hpres2⟩ :=
            putPrep_spec cs1 b1 kb hb1 hkb256 halign1 hwcs1
          have hidx : bsub kb b2 = kb - b2 := bsub_eq kb b2 hlo2 (by omega)
          cases hchild : cs2.get? (bsub kb b2) with
          | none =>
            rw [TrieL.get?_eq_none_iff, hidx] at hchild
            omega
          | some child =>
            have hwchild : wfT child := wfL_get cs2 _ child hwfcs2 hchild
            obtain ⟨child', hrec, hwfc', hgetc', hframec'⟩ :=
              ih child (key.drop (commonPrefix sfx key + 1)) v
                (by rw [List.length_drop]; omega) hwchild
                (fun x hx => hkey x (List.mem_of_mem_drop hx))
            refine ⟨.mk sfx1 v1 (cs2.set (bsub kb b2) child') b2, ?_, ?_, ?_, ?_⟩
            · rw [putF, if_neg hemp]
              simp only [hsplit, Option.some_bind, if_neg hskey, Trie.suffix, Trie.children,
                Trie.base, Trie.value, hkb, hprep, hchild, hrec, Option.map_some']
            · rw [wfT]
              refine ⟨hsfx1w, hb2, ?_, wfL_set _ _ _ hwfcs2 hwfc'⟩
              obtain ⟨k2, hk2, hlen2, hmod2⟩ := halign2
              exact Or.inr ⟨k2, hk2, by rw [TrieL.length_set]; exact hlen2, hmod2⟩
            · have hqb' : key.get? (commonPrefix sfx1 key) = some kb := by rw [hcp1]; exact hkb
              have hcset : (cs2.set (bsub kb b2) child').get? (bsub kb b2) = some child' := by
                rw [TrieL.get?_set, if_pos ⟨rfl, by omega⟩]
              have hrS : ¬ (kb < b2 ∨ b2 + (cs2.set (bsub kb b2) child').length ≤ kb) := by
                rw [TrieL.length_set]
                omega
              rw [get_node_child (by rw [hcp1]; omega) (by rw [hcp1]; exact hskey) hqb'
                hrS hcset]
              rw [hcp1]
              exact hgetc'
            · intro q hq hne
              rw [← hpres1 q hq, ← hpres2 sfx1 v1 q hq]
              -- compare the updated child array against cs2
              by_cases hd : commonPrefix sfx1 q < sfx1.length
              · rw [get_node_lt hd, get_node_lt hd]
              · by_cases ht : commonPrefix sfx1 q = q.length
                · rw [get_node_val hd ht, get_node_val hd ht]
                · have hcpq : commonPrefix sfx1 q = commonPrefix sfx key := by
                    have := commonPrefix_le_left sfx1 q
                    omega
                  obtain ⟨qb, hqb, hqbmem⟩ := get_sel_some sfx1 q hd ht
                  have hqb256 : qb < 256 := hq qb hqbmem
                  by_cases hr : qb < b2 ∨ b2 + cs2.length ≤ qb
                  · rw [get_node_out hd ht hqb (by rw [TrieL.length_set]; exact hr),
                      get_node_out hd ht hqb hr]
                  · have hidxq : bsub qb b2 = qb - b2 := bsub_eq qb b2 (by omega) (by omega)
                    by_cases hsame : qb = kb
                    · -- the updated slot: the tails must differ
                      subst hsame
                      have hrS : ¬ (qb < b2 ∨ b2 + (cs2.set (bsub qb b2) child').length ≤ qb) := by
                        rw [TrieL.length_set]
                        exact hr
                      have hcset : (cs2.set (bsub qb b2) child').get? (bsub qb b2)
                          = some child' := by
                        rw [TrieL.get?_set, if_pos ⟨rfl, by omega⟩]
                      rw [get_node_child hd ht hqb hrS hcset,
                        get_node_child hd ht hqb hr hchild]
                      have htail : q.drop (commonPrefix sfx key + 1)
                          ≠ key.drop (commonPrefix sfx key + 1) := by
                        intro hcon
                        apply hne
                        refine key_ext q key (commonPrefix sfx key) qb ?_ hkb ?_ hcon
                        · rw [← hcpq]; exact hqb
                        · have h5 : sfx1.take (commonPrefix sfx1 q) = q.take (commonPrefix sfx1 q) :=
                            take_commonPrefix sfx1 q _ (le_refl _)
                          rw [hcpq] at h5
                          have h6 : sfx1.take (commonPrefix sfx key) = sfx1 := by
                            rw [List.take_of_length_le (by omega)]
                          rw [h6] at h5
                          rw [← h5, htakekey]
                      rw [hcpq]
                      exact hframec' _ (fun x hx => hq x (List.mem_of_mem_drop hx)) htail
                    · -- an untouched slot
                      have hneq : ¬ (bsub kb b2 = bsub qb b2 ∧ bsub kb b2 < cs2.length) := by
                        intro ⟨hcon, _⟩
                        rw [hidx, hidxq] at hcon
                        exact hsame (show qb = kb by omega)
                      have hrS : ¬ (qb < b2 ∨ b2 + (cs2.set (bsub kb b2) child').length ≤ qb) := by
                        rw [TrieL.length_set]
                        exact hr
                      cases hc : cs2.get? (bsub qb b2) with
                      | none =>
                        have hcS : (cs2.set (bsub kb b2) child').get? (bsub qb b2) = none := by
                          rw [TrieL.get?_set, if_neg hneq]
                          exact hc
                        rw [get_node_child_none hd ht hqb hrS hcS,
                          get_node_child_none hd ht hqb hr hc]
                      | some c =>
                        have hcS : (cs2.set (bsub kb b2) child').get? (bsub qb b2) = some c := by
                          rw [TrieL.get?_set, if_neg hneq]
                          exact hc
                        rw [get_node_child hd ht hqb hrS hcS,
                          get_node_child hd ht hqb hr hc]

/-! ### `Put` at the wrapper level, and reachable tries -/

theorem putC_spec {α : Type} (t : Trie α) (key : List Nat) (v : Option α)
    (hwf : wfT t) (hkey : WFKey key) :
    ∃ t', putC t key v = some t' ∧ wfT t' ∧ get t' key = v ∧
      (∀ q, WFKey q → q ≠ key → get t' q = get t q) :=
  putF_spec (key.length + 1) t key v (by omega) hwf hkey

theorem wfT_empty {α : Type} : wfT (Trie.empty (α := α)) := by
  rw [Trie.empty, wfT]
  simp [wfL]

theorem put_eq_of_putC {α : Type} (t t' : Trie α) (key : List Nat) (v : Option α)
    (h : putC t key v = some t') : put t key v = t' := by
  rw [put, h, Option.getD]

theorem wfT_of_built {α : Type} (t : Trie α) (h : Built t) : wfT t := by
  induction h with
  | zero => exact wfT_empty
  | putStep t k v hb hk ih =>
    obtain ⟨t', hsome, hwf', _, _⟩ := putC_spec t k v ih hk
    rw [put_eq_of_putC t t' k v hsome]
    exact hwf'

theorem get_put_self {α : Type} (t : Trie α) (k : List Nat) (v : Option α)
    (hb : Built t) (hk : WFKey k) : get (put t k v) k = v := by
  obtain ⟨t', hsome, _, hget, _⟩ := putC_spec t k v (wfT_of_built t hb) hk
  rw [put_eq_of_putC t t' k v hsome]
  exact hget

theorem get_put_frame {α : Type} (t : Trie α) (k q : List Nat) (v : Option α)
    (hb : Built t) (hk : WFKey k) (hq : WFKey q) (hne : q ≠ k) :
    get (put t k v) q = get t q := by
  obtain ⟨t', hsome, _, _, hframe⟩ := putC_spec t k v (wfT_of_built t hb) hk
  rw [put_eq_of_putC t t' k v hsome]
  exact hframe q hq hne

/-! ### The model: a trie built from a sequence of puts behaves as the
last-write-wins association of the operations -/

/-- Apply a sequence of `Put` operations to the zero value. -/
def applyPuts {α : Type} (ops : List (List Nat × Option α)) : Trie α :=
  ops.foldl (fun t op => put t op.1 op.2) Trie.empty

/-- The reference model: the value of the last operation on the queried key. -/
def modelGet {α : Type} (ops : List (List Nat × Option α)) (q : List Nat) : Option α :=
  ops.foldl (fun acc op => if op.1 = q then op.2 else acc) none

theorem built_applyPuts {α : Type} (ops : List (List Nat × Option α))
    (hops : ∀ op ∈ ops, WFKey op.1) : Built (applyPuts ops) := by
  suffices h : ∀ t, Built t → Built (ops.foldl (fun t op => put t op.1 op.2) t) by
    exact h Trie.empty Built.zero
  induction ops with
  | nil => intro t ht; exact ht
  | cons op ops ih =>
    intro t ht
    rw [List.foldl_cons]
    exact ih (fun o ho => hops o (List.mem_cons_of_mem _ ho)) _
      (Built.putStep t op.1 op.2 ht (hops op (List.mem_cons_self _ _)))

/-- Simulation: `Get` on a put-built trie equals the last-write-wins model. -/
theorem get_applyPuts {α : Type} (ops : List (List Nat × Option α)) (q : List Nat)
    (hops : ∀ op ∈ ops, WFKey op.1) (hq : WFKey q) :
    get (applyPuts ops) q = modelGet ops q := by
  suffices h : ∀ t acc, Built t → get t q = acc →
      get (ops.foldl (fun t op => put t op.1 op.2) t) q
        = ops.foldl (fun acc op => if op.1 = q then op.2 else acc) acc by
    exact h Trie.empty none Built.zero (get_zero q)
  induction ops with
  | nil => intro t acc _ hacc; exact hacc
  | cons op ops ih =>
    intro t acc hbt hacc
    rw [List.foldl_cons, List.foldl_cons]
    have hkop : WFKey op.1 := hops op (List.mem_cons_self _ _)
    apply ih (fun o ho => hops o (List.mem_cons_of_mem _ ho))
      _ _ (Built.putStep t op.1 op.2 hbt hkop)
    by_cases he : op.1 = q
    · rw [if_pos he, ← he, get_put_self t op.1 op.2 hbt hkop]
    · rw [if_neg he, get_put_frame t op.1 q op.2 hbt hkop hq (fun hcon => he hcon.symm)]
      exact hacc

/-! ### Routing lemmas: `get` along an explicit path -/

theorem commonPrefix_append_self (sfx r : List Nat) :
    commonPrefix sfx (sfx ++ r) = sfx.length :=
  commonPrefix_of_isPrefix sfx (sfx ++ r) (List.prefix_append sfx r)

theorem get_sel_append (x : List Nat) (kb : Nat) (r : List Nat) :
    (x ++ kb :: r).get? x.length = some kb := by
  rw [List.get?_append_right (le_refl _)]
  simp

theorem drop_append_cons (x : List Nat) (kb : Nat) (r : List Nat) :
    (x ++ kb :: r).drop (x.length + 1) = r := by
  rw [List.drop_append]
  rfl

/-- Descending one level along an explicit path. -/
theorem get_descend {α : Type} (sfx : List Nat) (v : Option α) (cs : TrieL α) (b : Nat)
    (kb : Nat) (c : Trie α) (rest : List Nat)
    (hr : ¬ (kb < b ∨ b + cs.length ≤ kb))
    (hc : cs.get? (bsub kb b) = some c) :
    get (.mk sfx v cs b) (sfx ++ kb :: rest) = get c rest := by
  have h0 : commonPrefix sfx (sfx ++ kb :: rest) = sfx.length := commonPrefix_append_self _ _
  have h1 : ¬ commonPrefix sfx (sfx ++ kb :: rest) < sfx.length := by omega
  have h2 : ¬ commonPrefix sfx (sfx ++ kb :: rest) = (sfx ++ kb :: rest).length := by
    rw [h0, List.length_append, List.length_cons]; omega
  have hsel : (sfx ++ kb :: rest).get? (commonPrefix sfx (sfx ++ kb :: rest)) = some kb := by
    rw [h0]; exact get_sel_append _ _ _
  rw [get_node_child h1 h2 hsel hr hc, h0, drop_append_cons]

theorem commonPrefix_take_right (a b : List Nat) (m : Nat) :
    commonPrefix a (b.take m) = min (commonPrefix a b) m := by
  induction a generalizing b m with
  | nil => simp [commonPrefix]
  | cons x xs ih =>
    cases b with
    | nil => cases m <;> simp [commonPrefix]
    | cons y ys =>
      cases m with
      | zero => simp [commonPrefix]
      | succ m =>
        by_cases hxy : x = y
        · subst hxy
          rw [List.take_succ_cons]
          have e1 : commonPrefix (x :: xs) (x :: ys.take m) = commonPrefix xs (ys.take m) + 1 := by
            simp [commonPrefix]
          have e2 : commonPrefix (x :: xs) (x :: ys) = commonPrefix xs ys + 1 := by
            simp [commonPrefix]
          rw [e1, e2, ih]
          omega
        · rw [List.take_succ_cons]
          have e1 : commonPrefix (x :: xs) (y :: ys.take m) = 0 := by simp [commonPrefix, hxy]
          have e2 : commonPrefix (x :: xs) (y :: ys) = 0 := by simp [commonPrefix, hxy]
          rw [e1, e2]
          simp

/-- On a node whose suffix diverges from the key inside the suffix, no prefix
of the key is retrievable. -/
theorem get_prefix_none_of_diverge {α : Type} (sfx : List Nat) (v : Option α) (cs : TrieL α)
    (b : Nat) (key : List Nat) (hd : commonPrefix sfx key < sfx.length) (m : Nat) :
    get (.mk sfx v cs b) (key.take m) = none := by
  apply get_node_lt
  rw [commonPrefix_take_right]
  have := commonPrefix_le_left sfx key
  omega

theorem drop_cons_of_get? (l : List Nat) (s kb : Nat) (h : l.get? s = some kb) :
    l.drop s = kb :: l.drop (s + 1) := by
  obtain ⟨hlt, hget⟩ := List.get?_eq_some.mp h
  rw [List.drop_eq_getElem_cons hlt]
  have h6 : l[s] = l.get ⟨s, hlt⟩ := (List.get_eq_getElem l ⟨s, hlt⟩).symm
  rw [h6, hget]

/-! ### `get` on prefixes of the key, for the longest-prefix analysis -/

theorem get_take_lt {α : Type} (sfx : List Nat) (v : Option α) (cs : TrieL α) (b : Nat)
    (key : List Nat) (hcp : commonPrefix sfx key = sfx.length) (m : Nat)
    (hm : m < sfx.length) :
    get (.mk sfx v cs b) (key.take m) = none := by
  apply get_node_lt
  rw [commonPrefix_take_right]
  omega

theorem get_take_eq {α : Type} (sfx : List Nat) (v : Option α) (cs : TrieL α) (b : Nat)
    (key : List Nat) (hcp : commonPrefix sfx key = sfx.length)
    (hle : sfx.length ≤ key.length) :
    get (.mk sfx v cs b) (key.take sfx.length) = v := by
  apply get_node_val
  · rw [commonPrefix_take_right]; omega
  · rw [commonPrefix_take_right, List.length_take]; omega

theorem get_take_gt_out {α : Type} (sfx : List Nat) (v : Option α) (cs : TrieL α) (b : Nat)
    (key : List Nat) (kb : Nat) (hcp : commonPrefix sfx key = sfx.length) (m : Nat)
    (hgt : sfx.length < m) (hm : m ≤ key.length)
    (hkb : key.get? sfx.length = some kb)
    (hr : kb < b ∨ b + cs.length ≤ kb) :
    get (.mk sfx v cs b) (key.take m) = none := by
  have hc1 : commonPrefix sfx (key.take m) = sfx.length := by
    rw [commonPrefix_take_right]; omega
  apply get_node_out (by omega) (by rw [hc1, List.length_take]; omega) _ hr
  rw [hc1, List.get?_take hgt]
  exact hkb

theorem get_take_gt_child {α : Type} (sfx : List Nat) (v : Option α) (cs : TrieL α) (b : Nat)
    (key : List Nat) (kb : Nat) (c : Trie α) (hcp : commonPrefix sfx key = sfx.length) (m : Nat)
    (hgt : sfx.length < m) (hm : m ≤ key.length)
    (hkb : key.get? sfx.length = some kb)
    (hr : ¬ (kb < b ∨ b + cs.length ≤ kb))
    (hc : cs.get? (bsub kb b) = some c) :
    get (.mk sfx v cs b) (key.take m) =
      get c ((key.drop (sfx.length + 1)).take (m - (sfx.length + 1))) := by
  have hc1 : commonPrefix sfx (key.take m) = sfx.length := by
    rw [commonPrefix_take_right]; omega
  have hsel : (key.take m).get? (commonPrefix sfx (key.take m)) = some kb := by
    rw [hc1, List.get?_take hgt]
    exact hkb
  rw [get_node_child (by omega) (by rw [hc1, List.length_take]; omega) hsel hr hc, hc1,
    List.drop_take]


/-- Full specification of (checked) `FindPfx`: it returns the longest key
with a value that prefixes the query, or `([], none)`. -/
theorem findPfxF_spec {α : Type} :
    ∀ fuel (t : Trie α) key, key.length < fuel → wfT t → WFKey key →
      ∃ p w, findPfxF fuel t key = some (p, w) ∧
        ((∃ x, w = some x ∧ p <+: key ∧ get t p = some x ∧
            ∀ m, m ≤ key.length → (get t (key.take m)).isSome → m ≤ p.length)
         ∨ (w = none ∧ p = [] ∧ ∀ m, m ≤ key.length → get t (key.take m) = none)) := by
  intro fuel
  induction fuel with
  | zero => intro t key h _ _; omega
  | succ fuel ih =>
    intro t key hlen hwf hkey
    obtain ⟨sfx, v0, cs, b⟩ := t
    rw [wfT] at hwf
    obtain ⟨hsfxw, hb, halign, hwcs⟩ := hwf
    by_cases hd : commonPrefix sfx key < sfx.length
    · refine ⟨[], none, ?_, Or.inr ⟨rfl, rfl, ?_⟩⟩
      · simp only [findPfxF, Trie.suffix]
        rw [if_pos hd]
      · intro m _
        exact get_prefix_none_of_diverge sfx v0 cs b key hd m
    · have hcp : commonPrefix sfx key = sfx.length := by
        have := commonPrefix_le_left sfx key
        omega
      have hle : sfx.length ≤ key.length := by
        have := commonPrefix_le_right sfx key
        omega
      by_cases ht : commonPrefix sfx key = key.length
      · -- key = suffix
        have hkeq : sfx = key := eq_of_commonPrefix_lengths sfx key hcp (by omega)
        cases v0 with
        | some x =>
          refine ⟨sfx, some x, ?_, Or.inl ⟨x, rfl, hkeq ▸ List.prefix_refl key, ?_, ?_⟩⟩
          · simp only [findPfxF, Trie.suffix, Trie.value]
            rw [if_neg hd, if_pos ht]
            rfl
          · exact get_node_val (by rw [commonPrefix_self]; omega) (by rw [commonPrefix_self, hkeq])
          · intro m hm _
            omega
        | none =>
          refine ⟨[], none, ?_, Or.inr ⟨rfl, rfl, ?_⟩⟩
          · simp only [findPfxF, Trie.suffix, Trie.value]
            rw [if_neg hd, if_pos ht]
            rfl
          · intro m hm
            by_cases hmlt : m < sfx.length
            · exact get_take_lt sfx none cs b key hcp m hmlt
            · have hmeq : m = sfx.length := by omega
              rw [hmeq]
              exact get_take_eq sfx none cs b key hcp hle
      · have hslt : commonPrefix sfx key < key.length := by omega
        cases hkb : key.get? (commonPrefix sfx key) with
        | none => rw [List.get?_eq_none] at hkb; omega
        | some kb =>
          have hkb256 : kb < 256 := hkey kb (List.get?_mem hkb)
          have hkb' : key.get? sfx.length = some kb := by rw [← hcp]; exact hkb
          have hsfxpre : sfx <+: key := by
            refine (List.prefix_iff_eq_take.mpr ?_)
            have h5 := take_commonPrefix sfx key sfx.length (by omega)
            rwa [List.take_length] at h5
          by_cases hr : kb < b ∨ b + cs.length ≤ kb
          · -- selector byte out of range: this node is the last candidate
            have heq1 : findPfxF (fuel + 1) (.mk sfx v0 cs b) key =
                some (if v0.isSome then (sfx, v0) else ([], none)) := by
              simp only [findPfxF, Trie.suffix, Trie.value, Trie.children, Trie.base]
              rw [if_neg hd, if_neg ht, hkb]
              simp only [Option.some_bind]
              rw [if_pos hr]
            cases v0 with
            | some x =>
              refine ⟨sfx, some x, ?_, Or.inl ⟨x, rfl, hsfxpre, ?_, ?_⟩⟩
              · rw [heq1]; rfl
              · exact get_node_val (by rw [commonPrefix_self]; omega)
                  (by rw [commonPrefix_self])
              · intro m hm hsome
                by_cases hmlt : m < sfx.length
                · rw [get_take_lt sfx (some x) cs b key hcp m hmlt] at hsome
                  simp at hsome
                · by_cases hmgt : sfx.length < m
                  · rw [get_take_gt_out sfx (some x) cs b key kb hcp m hmgt hm hkb' hr] at hsome
                    simp at hsome
                  · omega
            | none =>
              refine ⟨[], none, ?_, Or.inr ⟨rfl, rfl, ?_⟩⟩
              · rw [heq1]; rfl
              · intro m hm
                by_cases hmlt : m < sfx.length
                · exact get_take_lt sfx none cs b key hcp m hmlt
                · by_cases hmgt : sfx.length < m
                  · exact get_take_gt_out sfx none cs b key kb hcp m hmgt hm hkb' hr
                  · have hmeq : m = sfx.length := by omega
                    rw [hmeq]
                    exact get_take_eq sfx none cs b key hcp hle
          · -- descend into the selected child
            have hidx : bsub kb b = kb - b := bsub_eq kb b (by omega) (by omega)
            cases hc : cs.get? (bsub kb b) with
            | none =>
              rw [TrieL.get?_eq_none_iff, hidx] at hc
              omega
            | some c =>
              have hwc : wfT c := wfL_get cs _ c hwcs hc
              have hkey' : WFKey (key.drop (sfx.length + 1)) :=
                fun x hx => hkey x (List.mem_of_mem_drop hx)
              obtain ⟨p', w', hrec, hcases⟩ :=
                ih c (key.drop (sfx.length + 1))
                  (by rw [List.length_drop]; omega) hwc hkey'
              have hrec' : findPfxF fuel c (key.drop (commonPrefix sfx key + 1)) =
                  some (p', w') := by
                rw [hcp]; exact hrec
              have htake1 : key.take sfx.length = sfx := by
                have h5 := take_commonPrefix sfx key sfx.length (by omega)
                rw [List.take_length] at h5
                exact h5.symm
              have htakes1 : key.take (sfx.length + 1) = sfx ++ [kb] := by
                rw [List.take_succ, ← List.get?_eq_getElem?, hkb', htake1]
                rfl
              have hgetroute : ∀ r, get (.mk sfx v0 cs b) (sfx ++ kb :: r) = get c r :=
                fun r => get_descend sfx v0 cs b kb c r hr hc
              have heq2 : ∀ res, findPfxF fuel c (key.drop (commonPrefix sfx key + 1))
                    = some res →
                  findPfxF (fuel + 1) (.mk sfx v0 cs b) key =
                    some (if res.2.isSome then (key.take (commonPrefix sfx key + 1) ++ res.1, res.2)
                      else if v0.isSome then (sfx, v0) else ([], none)) := by
                intro res hres
                simp only [findPfxF, Trie.suffix, Trie.value, Trie.children, Trie.base]
                rw [if_neg hd, if_neg ht, hkb]
                simp only [Option.some_bind]
                rw [if_neg hr, hc]
                simp only [Option.some_bind]
                rw [hres]
                rfl
              rcases hcases with ⟨x, hwx, hppre, hpget, hplong⟩ | ⟨hwnone, hpnil, hnone⟩
              · -- the child found a prefix: it is the longest
                subst hwx
                refine ⟨key.take (sfx.length + 1) ++ p', some x, ?_,
                  Or.inl ⟨x, rfl, ?_, ?_, ?_⟩⟩
                · have h8 := heq2 (p', some x) hrec'
                  rw [hcp] at h8
                  rw [h8]
                  rfl
                · obtain ⟨r, hrr⟩ := hppre
                  refine ⟨r, ?_⟩
                  rw [List.append_assoc, hrr]
                  conv_rhs => rw [← List.take_append_drop (sfx.length + 1) key]
                · rw [htakes1, List.append_assoc, List.singleton_append, hgetroute]
                  exact hpget
                · intro m hm hsome
                  rw [List.length_append, List.length_take]
                  by_cases hmlt : m < sfx.length
                  · rw [get_take_lt sfx v0 cs b key hcp m hmlt] at hsome
                    simp at hsome
                  · by_cases hmgt : sfx.length < m
                    · rw [get_take_gt_child sfx v0 cs b key kb c hcp m hmgt hm hkb' hr hc]
                        at hsome
                      have h7 := hplong (m - (sfx.length + 1))
                        (by rw [List.length_drop]; omega) hsome
                      omega
                    · omega
              · -- the child found nothing: fall back to this node's value
                subst hwnone
                have hchildnone : ∀ m, sfx.length < m → m ≤ key.length →
                    get (.mk sfx v0 cs b) (key.take m) = none := by
                  intro m hmgt hm
                  rw [get_take_gt_child sfx v0 cs b key kb c hcp m hmgt hm hkb' hr hc]
                  exact hnone (m - (sfx.length + 1)) (by rw [List.length_drop]; omega)
                cases v0 with
                | some x =>
                  refine ⟨sfx, some x, ?_, Or.inl ⟨x, rfl, hsfxpre, ?_, ?_⟩⟩
                  · have h8 := heq2 (p', none) hrec'
                    rw [hcp] at h8
                    rw [h8]
                    rfl
                  · exact get_node_val (by rw [commonPrefix_self]; omega)
                      (by rw [commonPrefix_self])
                  · intro m hm hsome
                    by_cases hmlt : m < sfx.length
                    · rw [get_take_lt sfx (some x) cs b key hcp m hmlt] at hsome
                      simp at hsome
                    · by_cases hmgt : sfx.length < m
                      · rw [hchildnone m hmgt hm] at hsome
                        simp at hsome
                      · omega
                | none =>
                  refine ⟨[], none, ?_, Or.inr ⟨rfl, rfl, ?_⟩⟩
                  · have h8 := heq2 (p', none) hrec'
                    rw [hcp] at h8
                    rw [h8]
                    rfl
                  · intro m hm
                    by_cases hmlt : m < sfx.length
                    · exact get_take_lt sfx none cs b key hcp m hmlt
                    · by_cases hmgt : sfx.length < m
                      · exact hchildnone m hmgt hm
                      · have hmeq : m = sfx.length := by omega
                        rw [hmeq]
                        exact get_take_eq sfx none cs b key hcp hle

/-! ### Specification of `subtrie` -/

theorem commonPrefix_right_append_of_lt (a x r : List Nat)
    (h : commonPrefix a x < x.length) :
    commonPrefix a (x ++ r) = commonPrefix a x := by
  rw [commonPrefix_comm, commonPrefix_append_of_lt x r a (by rw [commonPrefix_comm]; exact h),
    commonPrefix_comm]

/-- Full specification of (checked) `subtrie`: when it returns a node, the
prefix ends inside that node's suffix with overlap `s'`, and every lookup
that extends the prefix is answered by that node; when it returns Go's
`(nil, 0)`, nothing in the trie extends the prefix. -/
theorem subtrieF_spec {α : Type} :
    ∀ fuel (t : Trie α) pfx, pfx.length < fuel → wfT t → WFKey pfx →
      ∃ r, subtrieF fuel t pfx = some r ∧
        ((r = none → ∀ q, WFKey q → get t (pfx ++ q) = none) ∧
         (∀ t' s', r = some (t', s') →
            s' ≤ pfx.length ∧ s' ≤ t'.suffix.length ∧
            pfx.drop (pfx.length - s') = t'.suffix.take s' ∧ wfT t' ∧
            (∀ q, WFKey q → get t (pfx ++ q) = get t' (t'.suffix.take s' ++ q)))) := by
  intro fuel
  induction fuel with
  | zero => intro t pfx h _ _; omega
  | succ fuel ih =>
    intro t pfx hlen hwf hkey
    obtain ⟨sfx, v0, cs, b⟩ := t
    by_cases hterm : commonPrefix sfx pfx = pfx.length
    · -- the prefix ends inside this node's suffix
      have hple : pfx.length ≤ sfx.length := by
        have := commonPrefix_le_left sfx pfx
        omega
      have hpfx_take : pfx = sfx.take pfx.length := by
        have h5 := take_commonPrefix sfx pfx pfx.length (by omega)
        rw [List.take_length] at h5
        exact h5.symm
      refine ⟨some (.mk sfx v0 cs b, pfx.length), ?_, ?_, ?_⟩
      · simp only [subtrieF, Trie.suffix]
        rw [if_pos hterm, hterm]
      · intro hcon
        exact Option.noConfusion hcon
      · intro t' s' heq
        obtain ⟨rfl, rfl⟩ : t' = Trie.mk sfx v0 cs b ∧ s' = pfx.length := by
          constructor <;> injection (Option.some.inj heq) with h1 h2
          · exact h1.symm
          · exact h2.symm
        refine ⟨le_refl _, by rw [Trie.suffix]; omega, ?_, hwf, ?_⟩
        · rw [Nat.sub_self, List.drop_zero, Trie.suffix, ← hpfx_take]
        · intro q _
          rw [Trie.suffix, ← hpfx_take]
    · by_cases hd : commonPrefix sfx pfx < sfx.length
      · -- the prefix diverges inside the suffix: no subtree
        have hdp : commonPrefix sfx pfx < pfx.length := by
          have := commonPrefix_le_right sfx pfx
          omega
        refine ⟨none, ?_, ?_, ?_⟩
        · simp only [subtrieF, Trie.suffix]
          rw [if_neg hterm, if_pos hd]
        · intro _ q _
          apply get_node_lt
          rw [commonPrefix_right_append_of_lt sfx pfx q hdp]
          exact hd
        · intro t' s' hcon
          exact Option.noConfusion hcon
      · have hcp : commonPrefix sfx pfx = sfx.length := by
          have := commonPrefix_le_left sfx pfx
          omega
        have hslt : sfx.length < pfx.length := by
          have := commonPrefix_le_right sfx pfx
          omega
        cases hkb : pfx.get? (commonPrefix sfx pfx) with
        | none => rw [List.get?_eq_none] at hkb; omega
        | some kb =>
          have hkb256 : kb < 256 := hkey kb (List.get?_mem hkb)
          have hkb' : pfx.get? sfx.length = some kb := by rw [← hcp]; exact hkb
          have htake1 : pfx.take sfx.length = sfx := by
            have h5 := take_commonPrefix sfx pfx sfx.length (by omega)
            rw [List.take_length] at h5
            exact h5.symm
          have hpfxdec : pfx = sfx ++ kb :: pfx.drop (sfx.length + 1) := by
            conv_lhs => rw [← List.take_append_drop sfx.length pfx]
            rw [htake1, drop_cons_of_get? pfx _ kb hkb']
          by_cases hr : kb < b ∨ b + cs.length ≤ kb
          · refine ⟨none, ?_, ?_, ?_⟩
            · simp only [subtrieF, Trie.suffix, Trie.children, Trie.base]
              rw [if_neg hterm, if_neg hd, hkb]
              simp only [Option.some_bind]
              rw [if_pos hr]
            · intro _ q _
              have hdec2 : pfx ++ q = sfx ++ kb :: (pfx.drop (sfx.length + 1) ++ q) := by
                conv_lhs => rw [hpfxdec]
                simp
              rw [hdec2]
              apply get_node_out (by rw [commonPrefix_append_self]; omega)
                (by rw [commonPrefix_append_self, List.length_append, List.length_cons]; omega)
                (by rw [commonPrefix_append_self]; exact get_sel_append _ _ _) hr
            · intro t' s' hcon
              exact Option.noConfusion hcon
          · rw [wfT] at hwf
            obtain ⟨hsfxw, hb, halign, hwcs⟩ := hwf
            have hidx : bsub kb b = kb - b := bsub_eq kb b (by omega) (by omega)
            cases hc : cs.get? (bsub kb b) with
            | none =>
              rw [TrieL.get?_eq_none_iff, hidx] at hc
              omega
            | some c =>
              have hwc : wfT c := wfL_get cs _ c hwcs hc
              have hkey' : WFKey (pfx.drop (sfx.length + 1)) :=
                fun x hx => hkey x (List.mem_of_mem_drop hx)
              obtain ⟨r', hrec, hnone', hsome'⟩ :=
                ih c (pfx.drop (sfx.length + 1)) (by rw [List.length_drop]; omega) hwc hkey'
              have hgetroute : ∀ w, get (.mk sfx v0 cs b) (sfx ++ kb :: w) = get c w :=
                fun w => get_descend sfx v0 cs b kb c w hr hc
              have heqstep : subtrieF (fuel + 1) (.mk sfx v0 cs b) pfx = subtrieF fuel c
                  (pfx.drop (commonPrefix sfx pfx + 1)) := by
                simp only [subtrieF, Trie.suffix, Trie.children, Trie.base]
                rw [if_neg hterm, if_neg hd, hkb]
                simp only [Option.some_bind]
                rw [if_neg hr, hc]
                simp only [Option.some_bind]
              refine ⟨r', ?_, ?_, ?_⟩
              · rw [heqstep, hcp]
                exact hrec
              · intro hrn q hq
                have hdec2 : pfx ++ q = sfx ++ kb :: (pfx.drop (sfx.length + 1) ++ q) := by
                  conv_lhs => rw [hpfxdec]
                  simp
                rw [hdec2, hgetroute]
                exact hnone' hrn q hq
              · intro t' s' hrs
                obtain ⟨hs1, hs2, hdrop', hwt', hsem'⟩ := hsome' t' s' hrs
                refine ⟨by rw [List.length_drop] at hs1; omega, hs2, ?_, hwt', ?_⟩
                · rw [← hdrop']
                  have harith : pfx.length - s' = (sfx.length + 1) +
                      ((pfx.drop (sfx.length + 1)).length - s') := by
                    rw [List.length_drop] at hs1 ⊢
                    omega
                  rw [harith, ← List.drop_drop]
                · intro q hq
                  have hdec2 : pfx ++ q = sfx ++ kb :: (pfx.drop (sfx.length + 1) ++ q) := by
                    conv_lhs => rw [hpfxdec]
                    simp
                  rw [hdec2, hgetroute]
                  exact hsem' q hq

/-! ### The alignment invariant of §3 (claim C8) and the emitted-pairs view of
`forEach` (claims C3, C5) -/

mutual

/-- The child-array invariant as the spec states it: a non-empty `children`
array has power-of-two length and a `base` that is a multiple of that length,
at every node. -/
def alignedT {α : Type} : Trie α → Prop
  | .mk _ _ cs b => (cs ≠ .nil → (∃ k, cs.length = 2 ^ k) ∧ b % cs.length = 0) ∧ alignedL cs

def alignedL {α : Type} : TrieL α → Prop
  | .nil => True
  | .cons t ts => alignedT t ∧ alignedL ts

end

mutual

/-- The key/value pairs `forEach` emits below a node, with the traversal
buffer holding `buf` on entry: the node's own pair first, then each child
block in array order.  This is the reference list the `forEachF` lemmas
relate the embedded traversal to. -/
def emitT {α : Type} : Trie α → List Nat → List (List Nat × α)
  | .mk sfx v cs b, buf =>
    match v, cs with
    | none, .nil => []
    | _, _ =>
      (match v with | some x => [(buf ++ sfx, x)] | none => []) ++
        emitL cs (buf ++ sfx) (b % 256)

def emitL {α : Type} : TrieL α → List Nat → Nat → List (List Nat × α)
  | .nil, _, _ => []
  | .cons t ts, buf, cbyte => emitT t (buf ++ [cbyte]) ++ emitL ts buf ((cbyte + 1) % 256)

end

-- the trie of claim C1's example prefix structure at depth: "a"->1, "abc"->2, "abd"->3
def bugTrie : Trie Nat :=
  put (put (put Trie.empty [97] (some 1)) [97, 98, 99] (some 2)) [97, 98, 100] (some 3)

example : get bugTrie [97] = some 1 := by decide
example : get bugTrie [97, 98, 99] = some 2 := by decide

-- "abc"->1
def abcTrie : Trie Nat := put Trie.empty [97, 98, 99] (some 1)

-- "a"->1, "ba"->2
def twoTrie : Trie Nat := put (put Trie.empty [97] (some 1)) [98, 97] (some 2)

-- "a"->1, "ab"->2, then "aa" forces the base-1, length-1 growth boundary case
def boundaryTrie : Trie Nat :=
  put (put (put Trie.empty [97] (some 1)) [97, 98] (some 2)) [97, 97] (some 3)

example : get boundaryTrie [97] = some 1 ∧ get boundaryTrie [97, 98] = some 2 ∧
    get boundaryTrie [97, 97] = some 3 := by decide

theorem alignedL_of_wfL {α : Type} :
    ∀ (cs : TrieL α), (∀ u, u ∈ cs.toList → wfT u → alignedT u) → wfL cs → alignedL cs := by
  intro cs
  induction cs using TrieL.listInduction with
  | hnil => intro _ _; trivial
  | hcons t ts ih =>
    intro hm h
    rw [wfL] at h
    show alignedT t ∧ alignedL ts
    refine ⟨hm t (by simp [TrieL.toList]) h.1, ih ?_ h.2⟩
    intro u hu
    exact hm u (by simp [TrieL.toList]; exact Or.inr hu)

theorem alignedT_of_wfT {α : Type} : ∀ (t : Trie α), wfT t → alignedT t := by
  intro t
  induction t using Trie.nodeInduction with
  | h sfx v cs b ih =>
    intro hw
    rw [wfT] at hw
    obtain ⟨_, _, halign, hwcs⟩ := hw
    show (cs ≠ .nil → (∃ k, cs.length = 2 ^ k) ∧ b % cs.length = 0) ∧ alignedL cs
    constructor
    · intro hne
      rcases halign with hnil | ⟨k, _, hlen, hmod⟩
      · exact absurd hnil hne
      · exact ⟨⟨k, hlen⟩, by rw [hlen]; exact hmod⟩
    · exact alignedL_of_wfL cs ih hwcs

/-! ### The traversal returns: totality and the always-continue run -/

theorem take_set_of_le (l : List Nat) (i : Nat) (v : Nat) (n : Nat) (h : n ≤ i) :
    (l.set i v).take n = l.take n := by
  apply List.ext_get?
  intro j
  by_cases hj : j < n
  · rw [List.get?_take hj, List.get?_take hj, List.get?_set_ne]
    omega
  · have h1 : ((l.set i v).take n).get? j = none := by
      rw [List.get?_eq_none]
      have := List.length_take_le n (l.set i v)
      omega
    have h2 : (l.take n).get? j = none := by
      rw [List.get?_eq_none]
      have := List.length_take_le n l
      omega
    rw [h1, h2]

theorem set_append_singleton (buf : List Nat) (c c' : Nat) :
    (buf ++ [c]).set buf.length c' = buf ++ [c'] := by
  induction buf with
  | nil => rfl
  | cons a as ih =>
    show a :: (as ++ [c]).set as.length c' = a :: (as ++ [c'])
    rw [ih]

theorem forEachL_some_of {α : Type} (f : List Nat → α → Bool) :
    ∀ (cs : TrieL α),
      (∀ u, u ∈ cs.toList → ∀ buf, ∃ r, forEachF u f buf = some r ∧
        (r.2.1 = true → r.1 = buf)) →
      ∀ buf l, l < buf.length →
        ∃ r, forEachL cs f buf l = some r ∧
          (r.2.1 = true → r.1.length = buf.length ∧ r.1.take l = buf.take l) := by
  intro cs
  induction cs using TrieL.listInduction with
  | hnil =>
    intro _ buf l _
    exact ⟨(buf, true, []), rfl, fun _ => ⟨rfl, rfl⟩⟩
  | hcons t ts ih =>
    intro hm buf l hl
    obtain ⟨r1, hr1, hc1⟩ := hm t (by simp [TrieL.toList]) buf
    obtain ⟨buf1, c1, out1⟩ := r1
    cases c1 with
    | false =>
      refine ⟨(buf1, false, out1), ?_, fun hcon => Bool.noConfusion hcon⟩
      simp only [forEachL, hr1]
      rw [if_neg (by decide)]
    | true =>
      have hbuf1 : buf1 = buf := hc1 rfl
      subst hbuf1
      have hx : buf1.get? l = some (buf1.get ⟨l, hl⟩) := List.get?_eq_get hl
      obtain ⟨r2, hr2, hc2⟩ := ih (fun u hu => hm u (by simp [TrieL.toList]; exact Or.inr hu))
        (buf1.set l ((buf1.get ⟨l, hl⟩ + 1) % 256)) l (by rw [List.length_set]; exact hl)
      obtain ⟨buf2, c2, out2⟩ := r2
      refine ⟨(buf2, c2, out1 ++ out2), ?_, ?_⟩
      · simp only [forEachL, hr1, hx, hr2, if_true]
      · intro hc
        obtain ⟨hlen2, htake2⟩ := hc2 hc
        constructor
        · rw [hlen2, List.length_set]
        · rw [htake2, take_set_of_le _ _ _ _ (le_refl l)]

theorem forEachF_some {α : Type} (f : List Nat → α → Bool) :
    ∀ (t : Trie α) (buf : List Nat), ∃ r, forEachF t f buf = some r ∧
      (r.2.1 = true → r.1 = buf) := by
  intro t
  induction t using Trie.nodeInduction with
  | h sfx v cs b ih =>
    intro buf
    have hL : ∀ (buf2 : List Nat) (l : Nat), l < buf2.length →
        ∃ r, forEachL cs f buf2 l = some r ∧
          (r.2.1 = true → r.1.length = buf2.length ∧ r.1.take l = buf2.take l) :=
      forEachL_some_of f cs ih
    have htake : ∀ (buf3 : List Nat), buf3.take (buf ++ sfx).length = buf ++ sfx →
        buf3.take buf.length = buf := by
      intro buf3 h3
      have hmin : min buf.length (buf ++ sfx).length = buf.length := by
        rw [List.length_append]; omega
      have h4 : buf3.take buf.length = (buf3.take (buf ++ sfx).length).take buf.length := by
        rw [List.take_take, hmin]
      rw [h4, h3, List.take_left]
    have hcenter : ∀ (emitted : List (List Nat × α)), cs ≠ TrieL.nil →
        ∃ r, (match cs with
          | TrieL.nil => some ((buf ++ sfx).take buf.length, true, emitted)
          | TrieL.cons _ _ =>
            match forEachL cs f ((buf ++ sfx) ++ [b % 256]) (buf ++ sfx).length with
            | none => none
            | some (buf3, c2, out2) =>
              if c2 then some (buf3.take buf.length, true, emitted ++ out2)
              else some (buf3, false, emitted ++ out2)) = some r ∧
          (r.2.1 = true → r.1 = buf) := by
      intro emitted hne
      match cs, hne with
      | TrieL.cons c0 cr, _ =>
        have hlt : (buf ++ sfx).length < ((buf ++ sfx) ++ [b % 256]).length := by
          rw [List.length_append (buf ++ sfx) [b % 256]]
          simp
        obtain ⟨r2, hr2, hp2⟩ := hL ((buf ++ sfx) ++ [b % 256]) (buf ++ sfx).length hlt
        obtain ⟨buf3, c2, out2⟩ := r2
        cases c2 with
        | false =>
          refine ⟨(buf3, false, emitted ++ out2), ?_, fun hcon => Bool.noConfusion hcon⟩
          simp only [hr2]
          rw [if_neg (by decide)]
        | true =>
          obtain ⟨hlen3, htk3⟩ := hp2 rfl
          rw [List.take_left] at htk3
          refine ⟨(buf3.take buf.length, true, emitted ++ out2), ?_, fun _ => htake buf3 htk3⟩
          simp only [hr2]
          rw [if_pos trivial]
    match v, cs with
    | none, TrieL.nil =>
      exact ⟨(buf, true, []), rfl, fun _ => rfl⟩
    | none, TrieL.cons c0 cr =>
      obtain ⟨r, hr, hp⟩ := hcenter [] (fun h => TrieL.noConfusion h)
      refine ⟨r, ?_, hp⟩
      simp only [forEachF, if_true]
      exact hr
    | some x, cs0 =>
      cases hcont : f (buf ++ sfx) x with
      | false =>
        refine ⟨(buf ++ sfx, false, [(buf ++ sfx, x)]), ?_, fun hcon => Bool.noConfusion hcon⟩
        cases cs0 with
        | nil =>
          simp only [forEachF, hcont]
          rw [if_neg (by decide)]
        | cons c0 cr =>
          simp only [forEachF, hcont]
          rw [if_neg (by decide)]
      | true =>
        cases cs0 with
        | nil =>
          refine ⟨((buf ++ sfx).take buf.length, true, [(buf ++ sfx, x)]), ?_,
            fun _ => htake _ (by rw [List.take_length])⟩
          simp only [forEachF, hcont]
          rw [if_pos trivial]
        | cons c0 cr =>
          obtain ⟨r, hr, hp⟩ := hcenter [(buf ++ sfx, x)] (fun h => TrieL.noConfusion h)
          refine ⟨r, ?_, hp⟩
          simp only [forEachF, hcont]
          rw [if_pos trivial]
          exact hr

theorem forEachL_true_of {α : Type} (tf : List Nat → α → Bool) :
    ∀ (cs : TrieL α),
      (∀ u, u ∈ cs.toList → ∀ buf, forEachF u tf buf = some (buf, true, emitT u buf)) →
      ∀ (buf : List Nat) (cbyte : Nat), cbyte < 256 →
        forEachL cs tf (buf ++ [cbyte]) buf.length =
          some (buf ++ [(cbyte + cs.length) % 256], true, emitL cs buf cbyte) := by
  intro cs
  induction cs using TrieL.listInduction with
  | hnil =>
    intro _ buf cbyte hcb
    have h0 : (cbyte + TrieL.length (TrieL.nil : TrieL α)) % 256 = cbyte := by
      rw [TrieL.length]; omega
    rw [h0]
    rfl
  | hcons c0 cr ih =>
    intro hm buf cbyte hcb
    have hF := hm c0 (by simp [TrieL.toList]) (buf ++ [cbyte])
    have hget : (buf ++ [cbyte]).get? buf.length = some cbyte := get_sel_append buf cbyte []
    have hset : (buf ++ [cbyte]).set buf.length ((cbyte + 1) % 256) = buf ++ [(cbyte + 1) % 256] :=
      set_append_singleton buf cbyte ((cbyte + 1) % 256)
    have hrec := ih (fun u hu => hm u (by simp [TrieL.toList]; exact Or.inr hu)) buf
      ((cbyte + 1) % 256) (Nat.mod_lt _ (by omega))
    have harith : ((cbyte + 1) % 256 + cr.length) % 256 =
        (cbyte + TrieL.length (.cons c0 cr)) % 256 := by
      rw [TrieL.length]; omega
    simp only [forEachL, hF]
    rw [if_pos trivial]
    simp only [hget, hset, hrec]
    rw [harith]
    rfl

theorem forEachF_true {α : Type} (tf : List Nat → α → Bool) (htf : ∀ p x, tf p x = true) :
    ∀ (t : Trie α) (buf : List Nat),
      forEachF t tf buf = some (buf, true, emitT t buf) := by
  intro t
  induction t using Trie.nodeInduction with
  | h sfx v cs b ih =>
    intro buf
    have htk : ∀ (z sfx2 : List Nat), ((buf ++ sfx2) ++ z).take buf.length = buf := by
      intro z sfx2
      rw [List.append_assoc]
      exact List.take_left _ _
    match v, cs with
    | none, TrieL.nil => rfl
    | none, TrieL.cons c0 cr =>
      have hL := forEachL_true_of tf (.cons c0 cr) ih (buf ++ sfx) (b % 256)
        (Nat.mod_lt _ (by omega))
      simp only [forEachF, hL]
      rw [if_pos trivial]
      rw [htk]
      rfl
    | some x, TrieL.nil =>
      have hcont : tf (buf ++ sfx) x = true := htf (buf ++ sfx) x
      simp only [forEachF, hcont]
      rw [if_pos trivial]
      rw [List.take_left]
      rfl
    | some x, TrieL.cons c0 cr =>
      have hcont : tf (buf ++ sfx) x = true := htf (buf ++ sfx) x
      have hL := forEachL_true_of tf (.cons c0 cr) ih (buf ++ sfx) (b % 256)
        (Nat.mod_lt _ (by omega))
      simp only [forEachF, hcont, hL]
      rw [if_pos trivial, if_pos trivial]
      rw [htk]
      rfl

/-! ### Membership characterization for the emitted pairs -/

theorem wfL_mem {α : Type} : ∀ (cs : TrieL α), wfL cs → ∀ u, u ∈ cs.toList → wfT u := by
  intro cs
  induction cs using TrieL.listInduction with
  | hnil => intro _ u hu; simp [TrieL.toList] at hu
  | hcons t ts ih =>
    intro h u hu
    rw [wfL] at h
    simp [TrieL.toList] at hu
    rcases hu with rfl | hu
    · exact h.1
    · exact ih h.2 u hu

theorem wfT_children_le {α : Type} (sfx : List Nat) (v : Option α) (cs : TrieL α) (b : Nat)
    (hwf : wfT (.mk sfx v cs b)) : b + cs.length ≤ 256 := by
  rw [wfT] at hwf
  obtain ⟨_, hb, halign, _⟩ := hwf
  rcases halign with rfl | ⟨k, hk8, hlen, hmod⟩
  · rw [TrieL.length]; omega
  · rw [hlen]; exact base_window b k hb hk8 hmod

/-- Complete branch characterization of a successful lookup at a node. -/
theorem get_some_iff {α : Type} (sfx : List Nat) (v : Option α) (cs : TrieL α) (b : Nat)
    (hwf : wfT (.mk sfx v cs b)) (k : List Nat) (x : α) :
    get (.mk sfx v cs b) k = some x ↔
      (k = sfx ∧ v = some x) ∨
      (∃ i c k', cs.get? i = some c ∧ k = sfx ++ (b + i) :: k' ∧ get c k' = some x) := by
  have hble := wfT_children_le sfx v cs b hwf
  constructor
  · intro hget
    by_cases hd : commonPrefix sfx k < sfx.length
    · rw [get_node_lt hd] at hget
      exact Option.noConfusion hget
    · have hcp : commonPrefix sfx k = sfx.length := by
        have := commonPrefix_le_left sfx k
        omega
      by_cases ht : commonPrefix sfx k = k.length
      · left
        have hlk : sfx.length = k.length := by omega
        have hcpc : commonPrefix k sfx = k.length := by
          rw [commonPrefix_comm]; omega
        refine ⟨(eq_of_commonPrefix_lengths k sfx hcpc (by omega)), ?_⟩
        rw [get_node_val hd ht] at hget
        exact hget
      · obtain ⟨kb, hkb, _⟩ := get_sel_some sfx k hd ht
        by_cases hr : kb < b ∨ b + cs.length ≤ kb
        · rw [get_node_out hd ht hkb hr] at hget
          exact Option.noConfusion hget
        · cases hc : cs.get? (bsub kb b) with
          | none =>
            rw [get_node_child_none hd ht hkb hr hc] at hget
            exact Option.noConfusion hget
          | some c =>
            rw [get_node_child hd ht hkb hr hc] at hget
            right
            have hbsub : bsub kb b = kb - b := bsub_eq kb b (by omega) (by omega)
            rw [hbsub] at hc
            refine ⟨kb - b, c, k.drop (commonPrefix sfx k + 1), hc, ?_, hget⟩
            have hkbeq : b + (kb - b) = kb := by omega
            rw [hkbeq]
            have htake1 : k.take sfx.length = sfx := by
              have h5 := take_commonPrefix sfx k sfx.length (by omega)
              rw [List.take_length] at h5
              exact h5.symm
            conv_lhs => rw [← List.take_append_drop sfx.length k]
            rw [htake1, hcp, drop_cons_of_get? k sfx.length kb (by rw [← hcp]; exact hkb)]
  · rintro (⟨rfl, rfl⟩ | ⟨i, c, k', hc, rfl, hgc⟩)
    · exact get_node_val (by rw [commonPrefix_self]; omega) (commonPrefix_self _)
    · have hilen : i < cs.length := by
        have h1 : (cs.get? i).isSome := by rw [hc]; rfl
        exact (TrieL.get?_isSome_iff cs i).mp h1
      have hr : ¬ (b + i < b ∨ b + cs.length ≤ b + i) := by omega
      have hbsub : bsub (b + i) b = i := by
        rw [bsub_eq (b + i) b (by omega) (by omega)]
        omega
      rw [get_descend sfx v cs b (b + i) c k' hr (by rw [hbsub]; exact hc)]
      exact hgc

theorem emitL_mem {α : Type} :
    ∀ (cs : TrieL α) (buf : List Nat) (cbyte : Nat),
      (∀ u, u ∈ cs.toList → ∀ (buf2 p2 : List Nat) (x2 : α),
        ((p2, x2) ∈ emitT u buf2 ↔ ∃ k, p2 = buf2 ++ k ∧ get u k = some x2)) →
      cbyte + cs.length ≤ 256 →
      ∀ (p : List Nat) (x : α), ((p, x) ∈ emitL cs buf cbyte ↔
        ∃ i c k', cs.get? i = some c ∧ p = buf ++ (cbyte + i) :: k' ∧ get c k' = some x) := by
  intro cs
  induction cs using TrieL.listInduction with
  | hnil =>
    intro buf cbyte _ _ p x
    constructor
    · intro h
      simp [emitL] at h
    · rintro ⟨i, c, k', hc, _, _⟩
      simp [TrieL.get?] at hc
  | hcons c0 cr ih =>
    intro buf cbyte hm hle p x
    have hmh := hm c0 (by simp [TrieL.toList]) (buf ++ [cbyte]) p x
    have htail : (p, x) ∈ emitL cr buf ((cbyte + 1) % 256) ↔
        ∃ i c k', cr.get? i = some c ∧ p = buf ++ (cbyte + 1 + i) :: k' ∧ get c k' = some x := by
      cases cr with
      | nil =>
        constructor
        · intro h
          simp [emitL] at h
        · rintro ⟨i, c, k', hc, _, _⟩
          simp [TrieL.get?] at hc
      | cons c1 cr1 =>
        have hcb1 : (cbyte + 1) % 256 = cbyte + 1 := by
          rw [TrieL.length, TrieL.length] at hle
          omega
        rw [hcb1]
        exact ih buf (cbyte + 1)
          (fun u hu => hm u (by
            simp only [TrieL.toList, List.mem_cons]
            exact Or.inr (List.mem_cons.mp (by simpa [TrieL.toList] using hu)
              |>.elim (fun h => Or.inl h) (fun h => Or.inr h))))
          (by rw [TrieL.length] at hle; omega) p x
    constructor
    · intro h
      rw [emitL] at h
      rcases List.mem_append.mp h with h1 | h2
      · obtain ⟨k, hp, hg⟩ := hmh.mp h1
        refine ⟨0, c0, k, rfl, ?_, hg⟩
        rw [hp, List.append_assoc, List.singleton_append, Nat.add_zero]
      · obtain ⟨i, c, k', hc, hp, hg⟩ := htail.mp h2
        exact ⟨i + 1, c, k', hc, by rw [hp, show cbyte + (i + 1) = cbyte + 1 + i by omega], hg⟩
    · rintro ⟨i, c, k', hc, hp, hg⟩
      rw [emitL]
      apply List.mem_append.mpr
      cases i with
      | zero =>
        left
        rw [TrieL.get?] at hc
        injection hc with hc0
        subst hc0
        apply hmh.mpr
        exact ⟨k', by rw [hp, List.append_assoc, List.singleton_append, Nat.add_zero], hg⟩
      | succ i =>
        right
        apply htail.mpr
        rw [TrieL.get?] at hc
        exact ⟨i, c, k', hc, by rw [hp, show cbyte + (i + 1) = cbyte + 1 + i by omega], hg⟩

theorem emitT_mem {α : Type} :
    ∀ (t : Trie α), wfT t → ∀ (buf p : List Nat) (x : α),
      ((p, x) ∈ emitT t buf ↔ ∃ k, p = buf ++ k ∧ get t k = some x) := by
  intro t
  induction t using Trie.nodeInduction with
  | h sfx v cs b ih =>
    intro hwf buf p x
    have hble := wfT_children_le sfx v cs b hwf
    have hb256 : b < 256 := by
      rw [wfT] at hwf
      exact hwf.2.1
    have hwcs : wfL cs := by
      rw [wfT] at hwf
      exact hwf.2.2.2
    have hbmod : b % 256 = b := Nat.mod_eq_of_lt hb256
    have hmem := emitL_mem cs (buf ++ sfx) b
      (fun u hu buf2 p2 x2 => ih u hu (wfL_mem cs hwcs u hu) buf2 p2 x2) hble p x
    have hiff := get_some_iff sfx v cs b hwf
    match v, cs with
    | none, TrieL.nil =>
      constructor
      · intro h
        simp [emitT] at h
      · rintro ⟨k, _, hg⟩
        rw [get_empty_node] at hg
        exact Option.noConfusion hg
    | none, TrieL.cons c0 cr =>
      rw [show emitT (Trie.mk sfx none (TrieL.cons c0 cr) b) buf
          = emitL (TrieL.cons c0 cr) (buf ++ sfx) (b % 256) from rfl, hbmod]
      constructor
      · intro h
        obtain ⟨i, c, k', hc, hp, hg⟩ := hmem.mp h
        refine ⟨sfx ++ (b + i) :: k', by rw [hp, List.append_assoc], ?_⟩
        exact (hiff (sfx ++ (b + i) :: k') x).mpr (Or.inr ⟨i, c, k', hc, rfl, hg⟩)
      · rintro ⟨k, rfl, hg⟩
        rcases (hiff k x).mp hg with ⟨_, hv⟩ | ⟨i, c, k', hc, rfl, hg'⟩
        · exact Option.noConfusion hv
        · exact hmem.mpr ⟨i, c, k', hc, by rw [List.append_assoc], hg'⟩
    | some x0, cs0 =>
      rw [show emitT (Trie.mk sfx (some x0) cs0 b) buf
          = (buf ++ sfx, x0) :: emitL cs0 (buf ++ sfx) (b % 256) from rfl, hbmod]
      rw [List.mem_cons]
      constructor
      · intro h
        rcases h with h1 | h2
        · injection h1 with hp hx
          subst hx
          exact ⟨sfx, hp, (hiff sfx x).mpr (Or.inl ⟨rfl, rfl⟩)⟩
        · obtain ⟨i, c, k', hc, hp, hg⟩ := hmem.mp h2
          refine ⟨sfx ++ (b + i) :: k', by rw [hp, List.append_assoc], ?_⟩
          exact (hiff (sfx ++ (b + i) :: k') x).mpr (Or.inr ⟨i, c, k', hc, rfl, hg⟩)
      · rintro ⟨k, rfl, hg⟩
        rcases (hiff k x).mp hg with ⟨rfl, hv⟩ | ⟨i, c, k', hc, rfl, hg'⟩
        · injection hv with hv0
          subst hv0
          exact Or.inl rfl
        · exact Or.inr (hmem.mpr ⟨i, c, k', hc, by rw [List.append_assoc], hg'⟩)

/-! ### Sorted order of the emitted pairs -/

theorem lex_append_cons (p : List Nat) (a : Nat) (t : List Nat) :
    List.Lex (· < ·) p (p ++ a :: t) := by
  induction p with
  | nil => exact List.Lex.nil
  | cons h hs ih => exact List.Lex.cons ih

theorem lex_of_byte_lt (p : List Nat) (a b : Nat) (s t : List Nat) (h : a < b) :
    List.Lex (· < ·) (p ++ a :: s) (p ++ b :: t) := by
  induction p with
  | nil => exact List.Lex.rel h
  | cons x xs ih => exact List.Lex.cons ih

theorem lex_irrefl (l : List Nat) : ¬ List.Lex (· < ·) l l := by
  induction l with
  | nil => intro h; cases h
  | cons a as ih =>
    intro h
    cases h with
    | cons h1 => exact ih h1
    | rel h2 => exact lt_irrefl a h2

theorem emitL_keys {α : Type} :
    ∀ (cs : TrieL α) (buf : List Nat) (cbyte : Nat),
      (∀ u, u ∈ cs.toList → ∀ buf2 : List Nat,
        ((∀ p ∈ (emitT u buf2).map Prod.fst, ∃ r, p = buf2 ++ u.suffix ++ r) ∧
          List.Pairwise (List.Lex (· < ·)) ((emitT u buf2).map Prod.fst))) →
      cbyte + cs.length ≤ 256 →
      ((∀ p ∈ (emitL cs buf cbyte).map Prod.fst,
          ∃ i r, i < cs.length ∧ p = buf ++ (cbyte + i) :: r) ∧
        List.Pairwise (List.Lex (· < ·)) ((emitL cs buf cbyte).map Prod.fst)) := by
  intro cs
  induction cs using TrieL.listInduction with
  | hnil =>
    intro buf cbyte _ _
    exact ⟨fun p hp => by simp [emitL] at hp, by simp [emitL]⟩
  | hcons c0 cr ih =>
    intro buf cbyte hm hle
    obtain ⟨hpre0, hpw0⟩ := hm c0 (by simp [TrieL.toList]) (buf ++ [cbyte])
    have htail : (∀ p ∈ (emitL cr buf ((cbyte + 1) % 256)).map Prod.fst,
          ∃ i r, i < cr.length ∧ p = buf ++ (cbyte + 1 + i) :: r) ∧
        List.Pairwise (List.Lex (· < ·)) ((emitL cr buf ((cbyte + 1) % 256)).map Prod.fst) := by
      cases cr with
      | nil =>
        exact ⟨fun p hp => by simp [emitL] at hp, by simp [emitL]⟩
      | cons c1 cr1 =>
        have hcb1 : (cbyte + 1) % 256 = cbyte + 1 := by
          rw [TrieL.length, TrieL.length] at hle
          omega
        rw [hcb1]
        exact ih buf (cbyte + 1)
          (fun u hu => hm u (by
            simp only [TrieL.toList, List.mem_cons]
            exact Or.inr (List.mem_cons.mp (by simpa [TrieL.toList] using hu)
              |>.elim (fun h => Or.inl h) (fun h => Or.inr h))))
          (by rw [TrieL.length] at hle; omega)
    obtain ⟨hpre1, hpw1⟩ := htail
    have hsplit : (emitL (TrieL.cons c0 cr) buf cbyte).map Prod.fst =
        (emitT c0 (buf ++ [cbyte])).map Prod.fst ++
          (emitL cr buf ((cbyte + 1) % 256)).map Prod.fst := by
      rw [emitL, List.map_append]
    constructor
    · intro p hp
      rw [hsplit] at hp
      rcases List.mem_append.mp hp with h1 | h2
      · obtain ⟨r, hr⟩ := hpre0 p h1
        refine ⟨0, c0.suffix ++ r, by rw [TrieL.length]; omega, ?_⟩
        rw [hr, Nat.add_zero, List.append_assoc, List.append_assoc, List.singleton_append]
      · obtain ⟨i, r, hi, hr⟩ := hpre1 p h2
        exact ⟨i + 1, r, by rw [TrieL.length]; omega,
          by rw [hr, show cbyte + (i + 1) = cbyte + 1 + i by omega]⟩
    · rw [hsplit]
      rw [List.pairwise_append]
      refine ⟨hpw0, hpw1, ?_⟩
      intro p1 h1 p2 h2
      obtain ⟨r1, hr1⟩ := hpre0 p1 h1
      obtain ⟨j, r2, _, hr2⟩ := hpre1 p2 h2
      rw [hr1, hr2, List.append_assoc, List.append_assoc, List.singleton_append]
      exact lex_of_byte_lt buf cbyte (cbyte + 1 + j) _ _ (by omega)

theorem emitT_keys {α : Type} :
    ∀ (t : Trie α), wfT t → ∀ buf : List Nat,
      ((∀ p ∈ (emitT t buf).map Prod.fst, ∃ r, p = buf ++ t.suffix ++ r) ∧
        List.Pairwise (List.Lex (· < ·)) ((emitT t buf).map Prod.fst)) := by
  intro t
  induction t using Trie.nodeInduction with
  | h sfx v cs b ih =>
    intro hwf buf
    have hble := wfT_children_le sfx v cs b hwf
    have hb256 : b < 256 := by
      rw [wfT] at hwf
      exact hwf.2.1
    have hwcs : wfL cs := by
      rw [wfT] at hwf
      exact hwf.2.2.2
    have hbmod : b % 256 = b := Nat.mod_eq_of_lt hb256
    have hL := emitL_keys cs (buf ++ sfx) b
      (fun u hu buf2 => ih u hu (wfL_mem cs hwcs u hu) buf2) hble
    obtain ⟨hpreL, hpwL⟩ := hL
    match v, cs with
    | none, TrieL.nil =>
      exact ⟨fun p hp => by simp [emitT] at hp, by simp [emitT]⟩
    | none, TrieL.cons c0 cr =>
      have he : emitT (Trie.mk sfx none (TrieL.cons c0 cr) b) buf
          = emitL (TrieL.cons c0 cr) (buf ++ sfx) (b % 256) := rfl
      rw [he, hbmod]
      simp only [Trie.suffix]
      constructor
      · intro p hp
        obtain ⟨i, r, _, hr⟩ := hpreL p hp
        exact ⟨(b + i) :: r, by rw [hr, List.append_assoc]⟩
      · exact hpwL
    | some x0, cs0 =>
      have he : emitT (Trie.mk sfx (some x0) cs0 b) buf
          = (buf ++ sfx, x0) :: emitL cs0 (buf ++ sfx) (b % 256) := rfl
      rw [he, hbmod, List.map_cons]
      simp only [Trie.suffix]
      constructor
      · intro p hp
        rcases List.mem_cons.mp hp with h1 | h2
        · exact ⟨[], by rw [h1, List.append_nil]⟩
        · obtain ⟨i, r, _, hr⟩ := hpreL p h2
          exact ⟨(b + i) :: r, by rw [hr, List.append_assoc]⟩
      · rw [List.pairwise_cons]
        refine ⟨?_, hpwL⟩
        intro p2 h2
        obtain ⟨i, r, _, hr⟩ := hpreL p2 h2
        rw [hr]
        exact lex_append_cons (buf ++ sfx) (b + i) r

/-! ### Totality of the checked operations (the no-panic claim) -/

theorem getF_isSome {α : Type} :
    ∀ fuel (t : Trie α) key, key.length < fuel → WFKey key → (getF fuel t key).isSome := by
  intro fuel
  induction fuel with
  | zero => intro t key h _; omega
  | succ fuel ih =>
    intro t key hlen hkey
    obtain ⟨sfx, v, cs, b⟩ := t
    by_cases hd : commonPrefix sfx key < sfx.length
    · simp [getF, Trie.suffix, hd]
    · by_cases ht : commonPrefix sfx key = key.length
      · simp only [getF, Trie.suffix, Trie.value, if_neg hd, if_pos ht]
        rfl
      · have hs : commonPrefix sfx key < key.length := by
          have := commonPrefix_le_right sfx key
          omega
        simp only [getF, Trie.suffix, Trie.value, Trie.children, Trie.base,
          if_neg hd, if_neg ht]
        cases hkb : key.get? (commonPrefix sfx key) with
        | none => rw [List.get?_eq_none] at hkb; omega
        | some kb =>
          have hkb256 : kb < 256 := hkey kb (List.get?_mem hkb)
          by_cases hr : kb < b ∨ b + cs.length ≤ kb
          · simp [hr]
          · simp only [if_neg hr]
            have hbsub : bsub kb b = kb - b := bsub_eq kb b (by omega) (by omega)
            cases hc : cs.get? (bsub kb b) with
            | none =>
              rw [TrieL.get?_eq_none_iff, hbsub] at hc
              omega
            | some c =>
              exact ih c (key.drop (commonPrefix sfx key + 1))
                (by rw [List.length_drop]; omega)
                (fun x hx => hkey x (List.mem_of_mem_drop hx))

theorem findAllPfxF_isSome {α : Type} :
    ∀ fuel (t : Trie α) key ofs, key.length - ofs < fuel → ofs ≤ key.length → WFKey key →
      (findAllPfxF fuel t key ofs).isSome := by
  intro fuel
  induction fuel with
  | zero => intro t key ofs h _ _; omega
  | succ fuel ih =>
    intro t key ofs hlen hofs hkey
    obtain ⟨sfx, v, cs, b⟩ := t
    by_cases hd : commonPrefix sfx (key.drop ofs) < sfx.length
    · simp [findAllPfxF, Trie.suffix, hd]
    · by_cases ht : ofs + commonPrefix sfx (key.drop ofs) = key.length
      · simp only [findAllPfxF, Trie.suffix, Trie.value, if_neg hd, if_pos ht]
        cases v <;> rfl
      · have hsle : commonPrefix sfx (key.drop ofs) ≤ key.length - ofs := by
          have := commonPrefix_le_right sfx (key.drop ofs)
          rw [List.length_drop] at this
          omega
        have hs : commonPrefix sfx (key.drop ofs) < key.length := by omega
        simp only [findAllPfxF, Trie.suffix, Trie.value, Trie.children, Trie.base,
          if_neg hd, if_neg ht]
        cases hkb : key.get? (commonPrefix sfx (key.drop ofs)) with
        | none => rw [List.get?_eq_none] at hkb; omega
        | some kb =>
          simp only [Option.some_bind]
          have hkb256 : kb < 256 := hkey kb (List.get?_mem hkb)
          by_cases hr : kb < b ∨ b + cs.length ≤ kb
          · simp [hr]
          · simp only [if_neg hr]
            have hbsub : bsub kb b = kb - b := bsub_eq kb b (by omega) (by omega)
            cases hc : cs.get? (bsub kb b) with
            | none =>
              rw [TrieL.get?_eq_none_iff, hbsub] at hc
              omega
            | some c =>
              simp only [Option.some_bind]
              have hrec := ih c key (ofs + commonPrefix sfx (key.drop ofs) + 1)
                (by omega) (by omega) hkey
              cases hfa : findAllPfxF fuel c key (ofs + commonPrefix sfx (key.drop ofs) + 1) with
              | none => rw [hfa] at hrec; exact absurd hrec (by simp)
              | some kv => simp [hfa]

/-! ### `ForEachPfx` as a filter of `ForEach` (the always-continue case) -/

theorem prefix_get?_eq (l1 l2 : List Nat) (h : l1 <+: l2) (n : Nat) (hn : n < l1.length) :
    l2.get? n = l1.get? n := by
  obtain ⟨w, rfl⟩ := h
  exact List.get?_append hn

theorem not_prefix_of_byte_ne (buf0 : List Nat) (a b : Nat) (r s : List Nat) (h : a ≠ b) :
    ¬ (buf0 ++ a :: r) <+: (buf0 ++ b :: s) := by
  intro hp
  have h1 : (buf0 ++ b :: s).get? buf0.length = (buf0 ++ a :: r).get? buf0.length :=
    prefix_get?_eq _ _ hp buf0.length (by rw [List.length_append, List.length_cons]; omega)
  rw [get_sel_append, get_sel_append] at h1
  injection h1 with h2
  exact h h2.symm

theorem emitT_block_kill {α : Type} (c0 : Trie α) (buf0 : List Nat) (cb kb : Nat) (r : List Nat)
    (hne : cb ≠ kb)
    (hshape : ∀ p ∈ (emitT c0 (buf0 ++ [cb])).map Prod.fst,
      ∃ z, p = (buf0 ++ [cb]) ++ c0.suffix ++ z) :
    (emitT c0 (buf0 ++ [cb])).filter (fun kv => (buf0 ++ kb :: r).isPrefixOf kv.1) = [] := by
  rw [List.filter_eq_nil]
  intro kv hkv hpref
  obtain ⟨z, hz⟩ := hshape kv.1 (List.mem_map_of_mem Prod.fst hkv)
  rw [List.isPrefixOf_iff_prefix, hz] at hpref
  have hform : (buf0 ++ [cb]) ++ c0.suffix ++ z = buf0 ++ cb :: (c0.suffix ++ z) := by
    rw [List.append_assoc, List.append_assoc, List.singleton_append]
  rw [hform] at hpref
  exact not_prefix_of_byte_ne buf0 kb cb r _ (fun h => hne h.symm) hpref

theorem emitL_filter {α : Type} :
    ∀ (cs : TrieL α) (buf0 : List Nat) (cbyte kb : Nat) (r : List Nat),
      (∀ u, u ∈ cs.toList → ∀ buf2 : List Nat,
        ∀ p ∈ (emitT u buf2).map Prod.fst, ∃ z, p = buf2 ++ u.suffix ++ z) →
      cbyte + cs.length ≤ 256 →
      ((∀ c : Trie α, cbyte ≤ kb → cs.get? (kb - cbyte) = some c →
        (emitL cs buf0 cbyte).filter (fun kv => (buf0 ++ kb :: r).isPrefixOf kv.1) =
          (emitT c (buf0 ++ [kb])).filter (fun kv => (buf0 ++ kb :: r).isPrefixOf kv.1)) ∧
       ((kb < cbyte ∨ cbyte + cs.length ≤ kb) →
        (emitL cs buf0 cbyte).filter (fun kv => (buf0 ++ kb :: r).isPrefixOf kv.1) = [])) := by
  intro cs
  induction cs using TrieL.listInduction with
  | hnil =>
    intro buf0 cbyte kb r _ _
    constructor
    · intro c _ hc
      simp [TrieL.get?] at hc
    · intro _
      simp [emitL]
  | hcons c0 cr ih =>
    intro buf0 cbyte kb r hm hle
    have hm0 := hm c0 (by simp [TrieL.toList]) (buf0 ++ [cbyte])
    have hmtail : ∀ u, u ∈ cr.toList → ∀ buf2 : List Nat,
        ∀ p ∈ (emitT u buf2).map Prod.fst, ∃ z, p = buf2 ++ u.suffix ++ z :=
      fun u hu => hm u (by
        simp only [TrieL.toList, List.mem_cons]
        exact Or.inr (by simpa [TrieL.toList] using hu))
    have hsplit : (emitL (TrieL.cons c0 cr) buf0 cbyte).filter
          (fun kv => (buf0 ++ kb :: r).isPrefixOf kv.1) =
        (emitT c0 (buf0 ++ [cbyte])).filter (fun kv => (buf0 ++ kb :: r).isPrefixOf kv.1) ++
          (emitL cr buf0 ((cbyte + 1) % 256)).filter
            (fun kv => (buf0 ++ kb :: r).isPrefixOf kv.1) := by
      rw [emitL, List.filter_append]
    constructor
    · intro c hck hc
      cases Nat.eq_or_lt_of_le hck with
      | inl heq =>
        -- kb = cbyte: the head block is the selected child
        have hj : kb - cbyte = 0 := by omega
        rw [hj, TrieL.get?] at hc
        injection hc with hc0
        subst hc0
        rw [hsplit]
        have htail0 : (emitL cr buf0 ((cbyte + 1) % 256)).filter
            (fun kv => (buf0 ++ kb :: r).isPrefixOf kv.1) = [] := by
          cases cr with
          | nil => simp [emitL]
          | cons c1 cr1 =>
            have hcb1 : (cbyte + 1) % 256 = cbyte + 1 := by
              rw [TrieL.length, TrieL.length] at hle
              omega
            rw [hcb1]
            exact (ih buf0 (cbyte + 1) kb r hmtail
              (by rw [TrieL.length] at hle; omega)).2 (by omega)
        rw [htail0, List.append_nil, heq]
      | inr hlt =>
        -- cbyte < kb: the head block dies, recurse into the tail
        rw [hsplit]
        have hhead0 := emitT_block_kill c0 buf0 cbyte kb r (by omega) hm0
        rw [hhead0, List.nil_append]
        have hj : kb - cbyte = (kb - (cbyte + 1)) + 1 := by omega
        rw [hj, TrieL.get?] at hc
        cases cr with
        | nil => simp [TrieL.get?] at hc
        | cons c1 cr1 =>
          have hcb1 : (cbyte + 1) % 256 = cbyte + 1 := by
            rw [TrieL.length, TrieL.length] at hle
            omega
          rw [hcb1]
          exact (ih buf0 (cbyte + 1) kb r hmtail
            (by rw [TrieL.length] at hle; omega)).1 c (by omega) hc
    · intro hout
      rw [hsplit]
      have hhead0 := emitT_block_kill c0 buf0 cbyte kb r
        (by rw [TrieL.length] at hout; omega) hm0
      rw [hhead0, List.nil_append]
      cases cr with
      | nil => simp [emitL]
      | cons c1 cr1 =>
        have hcb1 : (cbyte + 1) % 256 = cbyte + 1 := by
          rw [TrieL.length, TrieL.length] at hle
          omega
        rw [hcb1]
        exact (ih buf0 (cbyte + 1) kb r hmtail
          (by rw [TrieL.length] at hle; omega)).2
          (by rw [TrieL.length] at hout ⊢; rw [TrieL.length] at hout; omega)

theorem emitT_decomp {α : Type} (sfx : List Nat) (v : Option α) (cs : TrieL α) (b : Nat)
    (buf : List Nat) :
    emitT (.mk sfx v cs b) buf =
      (match v with | some x => [(buf ++ sfx, x)] | none => []) ++
        emitL cs (buf ++ sfx) (b % 256) := by
  cases v <;> cases cs <;> rfl

theorem emit_filter_subtrie {α : Type} :
    ∀ fuel (t : Trie α) (rest buf : List Nat), rest.length < fuel → wfT t → WFKey rest →
      ((subtrieF fuel t rest = some none →
        (emitT t buf).filter (fun kv => (buf ++ rest).isPrefixOf kv.1) = []) ∧
       (∀ (t' : Trie α) (s' : Nat), subtrieF fuel t rest = some (some (t', s')) →
        (emitT t buf).filter (fun kv => (buf ++ rest).isPrefixOf kv.1) =
          emitT t' (buf ++ rest.take (rest.length - s')))) := by
  intro fuel
  induction fuel with
  | zero => intro t rest buf h _ _; omega
  | succ fuel ih =>
    intro t rest buf hlen hwf hkey
    obtain ⟨sfx, v, cs, b⟩ := t
    have hb256 : b < 256 := by rw [wfT] at hwf; exact hwf.2.1
    have hwcs : wfL cs := by rw [wfT] at hwf; exact hwf.2.2.2
    have hble := wfT_children_le sfx v cs b hwf
    have hbmod : b % 256 = b := Nat.mod_eq_of_lt hb256
    have hshape : ∀ p ∈ (emitT (Trie.mk sfx v cs b) buf).map Prod.fst,
        ∃ z, p = buf ++ sfx ++ z := by
      intro p hp
      obtain ⟨z, hz⟩ := (emitT_keys (Trie.mk sfx v cs b) hwf buf).1 p hp
      exact ⟨z, by rw [hz, Trie.suffix]⟩
    by_cases hterm : commonPrefix sfx rest = rest.length
    · -- the prefix ends inside this node: everything below matches it
      have hval : subtrieF (fuel + 1) (Trie.mk sfx v cs b) rest
          = some (some (Trie.mk sfx v cs b, rest.length)) := by
        simp only [subtrieF, Trie.suffix]
        rw [if_pos hterm, hterm]
      have hrle : rest.length ≤ sfx.length := by
        have := commonPrefix_le_left sfx rest
        omega
      have hsfxdec : rest ++ sfx.drop rest.length = sfx := by
        have h5 := take_commonPrefix sfx rest rest.length (by omega)
        rw [List.take_length] at h5
        conv_rhs => rw [← List.take_append_drop rest.length sfx]
        rw [h5]
      constructor
      · intro hcon
        rw [hval] at hcon
        injection hcon with hcon2
        exact Option.noConfusion hcon2
      · intro t' s' heq
        rw [hval] at heq
        injection heq with heq2
        injection heq2 with heq3
        injection heq3 with ht1 ht2
        subst ht1
        subst ht2
        rw [Nat.sub_self, List.take_zero, List.append_nil]
        apply List.filter_eq_self.mpr
        intro kv hkv
        obtain ⟨z, hz⟩ := hshape kv.1 (List.mem_map_of_mem Prod.fst hkv)
        have hpre : (buf ++ rest) <+: kv.1 := by
          rw [hz]
          refine ⟨sfx.drop rest.length ++ z, ?_⟩
          rw [← List.append_assoc, List.append_assoc buf, hsfxdec]
        rw [List.isPrefixOf_iff_prefix]
        exact hpre
    · by_cases hd : commonPrefix sfx rest < sfx.length
      · -- the prefix diverges inside the suffix: nothing matches
        have hval : subtrieF (fuel + 1) (Trie.mk sfx v cs b) rest = some none := by
          simp only [subtrieF, Trie.suffix]
          rw [if_neg hterm, if_pos hd]
        have hdp : commonPrefix sfx rest < rest.length := by
          have := commonPrefix_le_right sfx rest
          omega
        constructor
        · intro _
          apply List.filter_eq_nil.mpr
          intro kv hkv hpref
          obtain ⟨z, hz⟩ := hshape kv.1 (List.mem_map_of_mem Prod.fst hkv)
          rw [List.isPrefixOf_iff_prefix, hz, List.append_assoc] at hpref
          have hpref2 : rest <+: sfx ++ z := (List.prefix_append_right_inj buf).mp hpref
          have hg1 : (sfx ++ z).get? (commonPrefix sfx rest) = rest.get? (commonPrefix sfx rest) :=
            prefix_get?_eq rest (sfx ++ z) hpref2 _ hdp
          rw [List.get?_append hd] at hg1
          exact commonPrefix_get_ne sfx rest (commonPrefix sfx rest) rfl hd hdp hg1
        · intro t' s' heq
          rw [hval] at heq
          injection heq with heq2
          exact Option.noConfusion heq2
      · -- the suffix is fully consumed: descend into a child
        have hcp : commonPrefix sfx rest = sfx.length := by
          have := commonPrefix_le_left sfx rest
          omega
        have hslt : sfx.length < rest.length := by
          have := commonPrefix_le_right sfx rest
          omega
        cases hkb : rest.get? (commonPrefix sfx rest) with
        | none =>
          rw [List.get?_eq_none] at hkb
          omega
        | some kb =>
          have hkb256 : kb < 256 := hkey kb (List.get?_mem hkb)
          have hkb' : rest.get? sfx.length = some kb := by rw [← hcp]; exact hkb
          have htake1 : rest.take sfx.length = sfx := by
            have h5 := take_commonPrefix sfx rest sfx.length (by omega)
            rw [List.take_length] at h5
            exact h5.symm
          have hrestdec : rest = sfx ++ kb :: rest.drop (sfx.length + 1) := by
            conv_lhs => rw [← List.take_append_drop sfx.length rest]
            rw [htake1, drop_cons_of_get? rest _ kb hkb']
          have hemit := emitT_decomp sfx v cs b buf
          rw [hbmod] at hemit
          have hself : List.filter (fun kv => (buf ++ rest).isPrefixOf kv.1)
              (match v with | some x => [(buf ++ sfx, x)] | none => []) = [] := by
            cases v with
            | none => rfl
            | some x =>
              apply List.filter_eq_nil.mpr
              intro kv hkv hpref
              rw [List.mem_singleton] at hkv
              subst hkv
              rw [List.isPrefixOf_iff_prefix] at hpref
              have hpref2 : rest <+: sfx := (List.prefix_append_right_inj buf).mp hpref
              have := hpref2.length_le
              omega
          have hpredeq : buf ++ rest = (buf ++ sfx) ++ kb :: rest.drop (sfx.length + 1) := by
            conv_lhs => rw [hrestdec]
            rw [← List.append_assoc]
          have hLkill := emitL_filter cs (buf ++ sfx) b kb (rest.drop (sfx.length + 1))
            (fun u hu buf2 p hp => by
              obtain ⟨z, hz⟩ := (emitT_keys u (wfL_mem cs hwcs u hu) buf2).1 p hp
              exact ⟨z, hz⟩) hble
          by_cases hr : kb < b ∨ b + cs.length ≤ kb
          · have hval : subtrieF (fuel + 1) (Trie.mk sfx v cs b) rest = some none := by
              simp only [subtrieF, Trie.suffix, Trie.children, Trie.base]
              rw [if_neg hterm, if_neg hd, hkb]
              simp only [Option.some_bind]
              rw [if_pos hr]
            constructor
            · intro _
              rw [hemit, List.filter_append, hself, List.nil_append, hpredeq]
              exact hLkill.2 hr
            · intro t' s' heq
              rw [hval] at heq
              injection heq with heq2
              exact Option.noConfusion heq2
          · have hbsub : bsub kb b = kb - b := bsub_eq kb b (by omega) (by omega)
            cases hc : cs.get? (bsub kb b) with
            | none =>
              rw [TrieL.get?_eq_none_iff, hbsub] at hc
              omega
            | some c =>
              have hwc : wfT c := wfL_get cs _ c hwcs hc
              have hkey' : WFKey (rest.drop (sfx.length + 1)) :=
                fun x hx => hkey x (List.mem_of_mem_drop hx)
              have hlen' : (rest.drop (sfx.length + 1)).length < fuel := by
                rw [List.length_drop]
                omega
              have heqstep : subtrieF (fuel + 1) (Trie.mk sfx v cs b) rest
                  = subtrieF fuel c (rest.drop (sfx.length + 1)) := by
                simp only [subtrieF, Trie.suffix, Trie.children, Trie.base]
                rw [if_neg hterm, if_neg hd, hkb]
                simp only [Option.some_bind]
                rw [if_neg hr, hc]
                simp only [Option.some_bind]
                rw [hcp]
              have hLsel := hLkill.1 c (by omega) (by rw [← hbsub]; exact hc)
              have hmain : (emitT (Trie.mk sfx v cs b) buf).filter
                  (fun kv => (buf ++ rest).isPrefixOf kv.1) =
                  (emitT c ((buf ++ sfx) ++ [kb])).filter
                    (fun kv => (((buf ++ sfx) ++ [kb])
                      ++ rest.drop (sfx.length + 1)).isPrefixOf kv.1) := by
                rw [hemit, List.filter_append, hself, List.nil_append, hpredeq]
                have hpe2 : ((buf ++ sfx) ++ [kb]) ++ rest.drop (sfx.length + 1)
                    = (buf ++ sfx) ++ kb :: rest.drop (sfx.length + 1) := by
                  rw [List.append_assoc, List.singleton_append]
                rw [hpe2]
                exact hLsel
              obtain ⟨hnone', hsome'⟩ := ih c (rest.drop (sfx.length + 1))
                ((buf ++ sfx) ++ [kb]) hlen' hwc hkey'
              constructor
              · intro hval
                rw [heqstep] at hval
                rw [hmain]
                exact hnone' hval
              · intro t' s' heq
                rw [heqstep] at heq
                obtain ⟨D, hD⟩ : ∃ D, rest.drop (sfx.length + 1) = D := ⟨_, rfl⟩
                have hs1 : s' ≤ D.length := by
                  obtain ⟨r0, hr0, _, hsome0⟩ := subtrieF_spec fuel c
                    (rest.drop (sfx.length + 1)) hlen' hwc hkey'
                  rw [heq] at hr0
                  injection hr0 with hr0i
                  have h6 := (hsome0 t' s' hr0i.symm).1
                  rw [hD] at h6
                  exact h6
                rw [hmain, hsome' t' s' heq]
                congr 1
                rw [hD]
                have hrd : rest = sfx ++ kb :: D := by
                  rw [← hD]
                  exact hrestdec
                have htk : rest.take (rest.length - s')
                    = sfx ++ (kb :: D.take (D.length - s')) := by
                  rw [hrd, List.length_append, List.length_cons]
                  rw [show sfx.length + (D.length + 1) - s'
                      = sfx.length + ((D.length - s') + 1) from by omega]
                  rw [List.take_append, List.take_succ_cons]
                rw [htk, List.append_assoc, List.singleton_append, ← List.append_assoc]

instance decidableWFKey (k : List Nat) : Decidable (WFKey k) :=
  inferInstanceAs (Decidable (∀ x ∈ k, x < 256))

/-! ### Claim theorems -/

/-- C2: on any trie built by a sequence of `Put` operations from the zero
value, `Put(k, v)` with a non-nil `v` followed by `Get(k)` returns `v`. -/
theorem claim_put_get_roundtrip {α : Type} (t : Trie α) (k : List Nat) (x : α)
    (hb : Built t) (hk : WFKey k) : get (put t k (some x)) k = some x := by
  obtain ⟨t', hsome, _, hget, _⟩ := putC_spec t k (some x) (wfT_of_built t hb) hk
  rw [put_eq_of_putC t t' k (some x) hsome]
  exact hget

theorem claim_put_get_roundtrip_witness :
    get (put aaTrie [98, 99] (some 7)) [98, 99] = some 7 :=
  claim_put_get_roundtrip aaTrie [98, 99] 7
    (Built.putStep _ _ _
      (Built.putStep _ _ _
        (Built.putStep _ _ _ Built.zero (by decide)) (by decide)) (by decide))
    (by decide)

/-- C10: `Put(k, v)` never changes the result of `Get` at any other key,
including when the put splits a node or grows a child array. -/
theorem claim_put_frame {α : Type} (t : Trie α) (k q : List Nat) (v : Option α)
    (hb : Built t) (hk : WFKey k) (hq : WFKey q) (hne : q ≠ k) :
    get (put t k v) q = get t q := by
  obtain ⟨t', hsome, _, _, hframe⟩ := putC_spec t k v (wfT_of_built t hb) hk
  rw [put_eq_of_putC t t' k v hsome]
  exact hframe q hq hne

theorem claim_put_frame_witness :
    get (put aaTrie [97, 97, 99] (some 9)) [97, 97] = get aaTrie [97, 97] :=
  claim_put_frame aaTrie [97, 97, 99] [97, 97] (some 9)
    (Built.putStep _ _ _
      (Built.putStep _ _ _
        (Built.putStep _ _ _ Built.zero (by decide)) (by decide)) (by decide))
    (by decide) (by decide) (by decide)

/-- C8: every node of a put-built trie with a non-empty child array has a
power-of-two array length with `base` a multiple of that length (the growth
rule's boundary case `key byte = base - 1, length 1` included: see the
witness, whose last put triggers exactly that case). -/
theorem claim_children_aligned {α : Type} (t : Trie α) (hb : Built t) : alignedT t :=
  alignedT_of_wfT t (wfT_of_built t hb)

theorem claim_children_aligned_witness : alignedT boundaryTrie :=
  claim_children_aligned boundaryTrie
    (Built.putStep _ _ _
      (Built.putStep _ _ _
        (Built.putStep _ _ _ Built.zero (by decide)) (by decide)) (by decide))

/-- C6: a strict prefix `p` of an inserted key `k` is not retrievable unless
`p` itself was inserted with a non-nil value (last write on `p` nil or
absent, modelled by `modelGet ops p = none`). -/
theorem claim_no_accidental_prefix {α : Type} (ops : List (List Nat × Option α))
    (p k : List Nat) (x : α)
    (hops : ∀ op ∈ ops, WFKey op.1) (hk : WFKey k)
    (hmem : (k, some x) ∈ ops) (hpre : p <+: k) (hne : p ≠ k)
    (hnotp : modelGet ops p = none) :
    get (applyPuts ops) p = none := by
  have hp : WFKey p := fun y hy => hk y (hpre.subset hy)
  rw [get_applyPuts ops p hops hp]
  exact hnotp

theorem claim_no_accidental_prefix_witness :
    get (applyPuts [([97, 98, 99], some 5)]) [97] = none :=
  claim_no_accidental_prefix [([97, 98, 99], some 5)] [97] [97, 98, 99] 5
    (by decide) (by decide) (by decide) (by decide) (by decide) (by decide)

theorem forEachPairs_true {α : Type} (t : Trie α) :
    forEachPairs t (fun _ _ => true) = emitT t [] := by
  simp only [forEachPairs, forEachF_true (fun _ _ => true) (fun _ _ => rfl)]

/-- C3: with an always-continuing callback, `ForEach` on a put-built trie
passes keys in strictly increasing lexicographic byte order (hence no key
repeated), and passes a pair `(k, x)` if and only if `x` is the value stored
at `k` (so the emitted key set is exactly the set of keys with non-nil
values, each with its stored value). -/
theorem claim_forEach_sorted {α : Type} (t : Trie α) (hb : Built t) :
    List.Pairwise (List.Lex (· < ·)) ((forEachPairs t (fun _ _ => true)).map Prod.fst) ∧
    (∀ (k : List Nat) (x : α), (k, x) ∈ forEachPairs t (fun _ _ => true) ↔
      get t k = some x) := by
  have hwf := wfT_of_built t hb
  rw [forEachPairs_true]
  constructor
  · exact (emitT_keys t hwf []).2
  · intro k x
    rw [emitT_mem t hwf [] k x]
    constructor
    · rintro ⟨k', hk, hg⟩
      rw [List.nil_append] at hk
      rw [hk]
      exact hg
    · intro hg
      exact ⟨k, (List.nil_append k).symm, hg⟩

theorem claim_forEach_sorted_witness :
    List.Pairwise (List.Lex (· < ·)) ((forEachPairs aaTrie (fun _ _ => true)).map Prod.fst) ∧
    (∀ (k : List Nat) (x : Nat), (k, x) ∈ forEachPairs aaTrie (fun _ _ => true) ↔
      get aaTrie k = some x) :=
  claim_forEach_sorted aaTrie
    (Built.putStep _ _ _
      (Built.putStep _ _ _
        (Built.putStep _ _ _ Built.zero (by decide)) (by decide)) (by decide))

/-- C5 (amended): with an always-continuing callback, the pairs passed by
`ForEachPfx(p, f)` are exactly the pairs passed by `ForEach(f)` whose keys
start with `p`, in the same order.  For an early-stopping callback the
original claim fails: see the counterexample theorem. -/
theorem claim_forEachPfx_filter {α : Type} (t : Trie α) (p : List Nat)
    (hb : Built t) (hp : WFKey p) :
    forEachPfxPairs t p (fun _ _ => true) =
      (forEachPairs t (fun _ _ => true)).filter (fun kv => p.isPrefixOf kv.1) := by
  have hwf := wfT_of_built t hb
  obtain ⟨r, hr, hnone, hsome⟩ := subtrieF_spec (p.length + 1) t p (by omega) hwf hp
  obtain ⟨hfn, hfs⟩ := emit_filter_subtrie (p.length + 1) t p [] (by omega) hwf hp
  have hsub : subtrieC t p = some r := hr
  rw [forEachPairs_true]
  cases r with
  | none =>
    simp only [forEachPfxPairs, forEachPfxC, hsub]
    have h2 := hfn hr
    rw [List.nil_append] at h2
    exact h2.symm
  | some ts =>
    obtain ⟨t', s'⟩ := ts
    simp only [forEachPfxPairs, forEachPfxC, hsub,
      forEachF_true (fun _ _ => true) (fun _ _ => rfl)]
    have h2 := hfs t' s' hr
    rw [List.nil_append, List.nil_append] at h2
    exact h2.symm

theorem claim_forEachPfx_filter_witness :
    forEachPfxPairs aaTrie [97, 97, 98] (fun _ _ => true) =
      (forEachPairs aaTrie (fun _ _ => true)).filter
        (fun kv => ([97, 97, 98] : List Nat).isPrefixOf kv.1) :=
  claim_forEachPfx_filter aaTrie [97, 97, 98]
    (Built.putStep _ _ _
      (Built.putStep _ _ _
        (Built.putStep _ _ _ Built.zero (by decide)) (by decide)) (by decide))
    (by decide)

/-- C5's original statement is false for an early-stopping callback: on the
trie "a"->1, "ba"->2 with a callback that immediately stops, `ForEachPfx("b", f)`
passes the pair ("ba", 2), but the pairs passed by `ForEach(f)` whose keys
start with "b" are none at all (the traversal stops at "a"). -/
theorem claim_forEachPfx_stop_counterexample :
    forEachPfxPairs twoTrie [98] (fun _ _ => false) = [([98, 97], 2)] ∧
    forEachPairs twoTrie (fun _ _ => false) = [([97], 1)] ∧
    (forEachPairs twoTrie (fun _ _ => false)).filter
      (fun kv => ([98] : List Nat).isPrefixOf kv.1) = [] := by
  decide

/-- C4: `FindPfx` on a put-built trie returns the longest inserted key with
non-nil value that is a prefix of the query together with its stored value,
and `([], none)` ("", nil) when no inserted prefix exists. -/
theorem claim_findPfx_longest {α : Type} (t : Trie α) (key : List Nat)
    (hb : Built t) (hk : WFKey key) :
    ((findPfx t key).2 = none → (findPfx t key).1 = [] ∧
        ∀ q, q <+: key → get t q = none) ∧
    (∀ x : α, (findPfx t key).2 = some x →
        (findPfx t key).1 <+: key ∧ get t (findPfx t key).1 = some x ∧
        ∀ q, q <+: key → (get t q).isSome → q.length ≤ (findPfx t key).1.length) := by
  obtain ⟨p, w, hpw, hcase⟩ := findPfxF_spec (key.length + 1) t key (by omega)
    (wfT_of_built t hb) hk
  have hfp : findPfx t key = (p, w) := by
    rw [findPfx, findPfxC, hpw]
    rfl
  rw [hfp]
  rcases hcase with ⟨x, rfl, hpre, hget, hlong⟩ | ⟨rfl, rfl, hnone⟩
  · constructor
    · intro hcon
      exact Option.noConfusion hcon
    · intro x' hx'
      injection hx' with hx''
      subst hx''
      refine ⟨hpre, hget, ?_⟩
      intro q hq hqs
      have hqt : q = key.take q.length := List.prefix_iff_eq_take.mp hq
      exact hlong q.length hq.length_le (by rw [← hqt]; exact hqs)
  · constructor
    · intro _
      refine ⟨rfl, ?_⟩
      intro q hq
      have hqt : q = key.take q.length := List.prefix_iff_eq_take.mp hq
      rw [hqt]
      exact hnone q.length hq.length_le
    · intro x hx
      exact Option.noConfusion hx

theorem claim_findPfx_longest_witness :
    (findPfx fooTrie [102, 111, 111, 97, 97, 97, 97, 98, 99, 100]).1
        <+: [102, 111, 111, 97, 97, 97, 97, 98, 99, 100] ∧
      get fooTrie (findPfx fooTrie [102, 111, 111, 97, 97, 97, 97, 98, 99, 100]).1 = some 1 ∧
      ∀ q, q <+: [102, 111, 111, 97, 97, 97, 97, 98, 99, 100] → (get fooTrie q).isSome →
        q.length ≤ (findPfx fooTrie [102, 111, 111, 97, 97, 97, 97, 98, 99, 100]).1.length :=
  (claim_findPfx_longest fooTrie [102, 111, 111, 97, 97, 97, 97, 98, 99, 100]
    (Built.putStep _ _ _ (Built.putStep _ _ _ Built.zero (by decide)) (by decide))
    (by decide)).2 1 (by decide)

/-- C9 (amended): `subtrie` either reports that no key extends the prefix, or
returns the node the prefix ends in together with the number of prefix bytes
that overlap that node's suffix (the consumed overlap, not the trailing
unconsumed count: see the counterexample theorem); every lookup extending the
prefix is answered inside the returned node behind that overlap. -/
theorem claim_subtrie_overlap {α : Type} (t : Trie α) (pfx : List Nat)
    (hb : Built t) (hp : WFKey pfx) :
    (subtrie t pfx = none → ∀ q, WFKey q → get t (pfx ++ q) = none) ∧
    (∀ (t' : Trie α) (s' : Nat), subtrie t pfx = some (t', s') →
      s' ≤ pfx.length ∧ s' ≤ t'.suffix.length ∧
      pfx.drop (pfx.length - s') = t'.suffix.take s' ∧
      ∀ q, WFKey q → get t (pfx ++ q) = get t' (t'.suffix.take s' ++ q)) := by
  obtain ⟨r, hr, hnone, hsome⟩ := subtrieF_spec (pfx.length + 1) t pfx (by omega)
    (wfT_of_built t hb) hp
  have hsub : subtrie t pfx = r := by
    rw [subtrie, subtrieC, hr]
    rfl
  constructor
  · intro h0 q hq
    exact hnone (by rw [← hsub]; exact h0) q hq
  · intro t' s' h0
    obtain ⟨h1, h2, h3, _, h5⟩ := hsome t' s' (by rw [← hsub]; exact h0)
    exact ⟨h1, h2, h3, h5⟩

theorem claim_subtrie_overlap_witness :
    (2 : Nat) ≤ ([97, 98] : List Nat).length ∧ 2 ≤ abcTrie.suffix.length ∧
    ([97, 98] : List Nat).drop (([97, 98] : List Nat).length - 2) = abcTrie.suffix.take 2 ∧
    ∀ q, WFKey q → get abcTrie ([97, 98] ++ q) = get abcTrie (abcTrie.suffix.take 2 ++ q) :=
  (claim_subtrie_overlap abcTrie [97, 98]
    (Built.putStep _ _ _ Built.zero (by decide)) (by decide)).2 abcTrie 2 (by decide)

/-- C9's original wording says the count is the number of trailing suffix
characters not yet consumed by the prefix; the code returns the consumed
overlap instead.  With "abc"->1 and prefix "ab", one trailing suffix byte is
unconsumed, but subtrie returns 2. -/
theorem claim_subtrie_count_counterexample :
    subtrie abcTrie [97, 98] = some (abcTrie, 2) ∧
    abcTrie.suffix.length - ([97, 98] : List Nat).length = 1 ∧ (2 : Nat) ≠ 1 := by
  decide

/-- C7: on a put-built trie, each checked operation returns a result for
every byte-string argument and every callback: `none` in the embedding marks
an out-of-range byte or child-array index (a Go panic), and no checked
operation produces it. -/
theorem claim_no_panic {α : Type} (t : Trie α) (k p : List Nat) (v : Option α)
    (f : List Nat → α → Bool) (hb : Built t) (hk : WFKey k) (hp : WFKey p) :
    (putC t k v).isSome ∧ (getC t k).isSome ∧ (findPfxC t k).isSome ∧
    (findAllPfxC t k).isSome ∧ (subtrieC t p).isSome ∧
    (forEachF t f []).isSome ∧ (forEachPfxC t p f).isSome := by
  have hwf := wfT_of_built t hb
  refine ⟨?_, ?_, ?_, ?_, ?_, ?_, ?_⟩
  · obtain ⟨t', h1, _⟩ := putC_spec t k v hwf hk
    rw [h1]
    rfl
  · exact getF_isSome (k.length + 1) t k (by omega) hk
  · obtain ⟨p1, w1, h1, _⟩ := findPfxF_spec (k.length + 1) t k (by omega) hwf hk
    rw [findPfxC, h1]
    rfl
  · exact findAllPfxF_isSome (k.length + 1) t k 0 (by omega) (by omega) hk
  · obtain ⟨r, h1, _⟩ := subtrieF_spec (p.length + 1) t p (by omega) hwf hp
    rw [subtrieC, h1]
    rfl
  · obtain ⟨r, h1, _⟩ := forEachF_some f t []
    rw [h1]
    rfl
  · obtain ⟨r, h1, _⟩ := subtrieF_spec (p.length + 1) t p (by omega) hwf hp
    cases r with
    | none =>
      simp only [forEachPfxC, subtrieC, h1]
      rfl
    | some ts =>
      obtain ⟨t', s'⟩ := ts
      obtain ⟨r2, h2, _⟩ := forEachF_some f t' (p.take (p.length - s'))
      simp only [forEachPfxC, subtrieC, h1, h2]
      rfl

theorem claim_no_panic_witness :
    (putC aaTrie [97] (some 4)).isSome ∧ (getC aaTrie [97]).isSome ∧
    (findPfxC aaTrie [97]).isSome ∧ (findAllPfxC aaTrie [97]).isSome ∧
    (subtrieC aaTrie [97, 97, 98]).isSome ∧
    (forEachF aaTrie (fun _ _ => true) []).isSome ∧
    (forEachPfxC aaTrie [97, 97, 98] (fun _ _ => true)).isSome :=
  claim_no_panic aaTrie [97] [97, 97, 98] (some 4) (fun _ _ => true)
    (Built.putStep _ _ _
      (Built.putStep _ _ _
        (Built.putStep _ _ _ Built.zero (by decide)) (by decide)) (by decide))
    (by decide) (by decide)

/-- C1 is refuted by the code: after Put("a", 1), Put("abc", 2), Put("abd", 3),
the keys "a" and "abd" both carry values and both prefix the query "abd", but
FindAllPfx("abd") returns only [("a", 1)] — findAllPfx tests and selects
children with key[s] instead of key[ofs+s] (trie.go lines 192 and 199), so
below the first recursion it follows the wrong byte. -/
theorem claim_findAllPfx_code_bug :
    get bugTrie [97] = some 1 ∧ get bugTrie [97, 98, 100] = some 3 ∧
    findAllPfx bugTrie [97, 98, 100] = [([97], 1)] := by
  decide
